import Mathlib

/-!
# Kemeny rankings by exhaustive search (`kemeny_ranking.c`)

A shallow embedding of `kemeny_ranking.c` and a verification of its search.

Conventions of the embedding.

* A C `int` is an `Int`.  The only arithmetic the program performs on data is
  `p += weight[..][..]` in `ranking_penalty`; it is modelled in 32-bit two's
  complement (`wrap32`).
* The global `weight[100][100]` is a function `Int → Int → Int` (all zero at
  program start, as a C global is).  The global `ranking[100]` is the list of its
  first `number_of_candidates` cells.  The embedding is faithful for
  `number_of_candidates ≤ 100`, the capacity of the two arrays: for a larger value the
  first loop of `read_input` writes past `weight`, which is undefined behaviour.
* The input is a list of integers.  `fscanf("%d")` stores an integer in an `int`
  only if it lies in the range of `int` (`is_int`); the conversion of any other integer
  is undefined behaviour, so the embedding is faithful for inputs of `int` values
  (`int_input`).
* Loop counters that only ever hold array positions are `Nat`; a counter that can
  step to `-1` is shifted by one (see `pivot_scan`).
* `fatal` (print a diagnostic, `exit(1)`) is the `Except.error` outcome.
* A `do … while (next_ranking_permutation())` loop takes a fuel argument and
  returns `none` when the fuel runs out before the loop ends.
-/

namespace Kemeny

/-! ## Data model -/

/-- The global `int weight[][]`. -/
abbrev Weight := Int → Int → Int

/-- The first `number_of_candidates` cells of the global `int ranking[]`. -/
abbrev Ranking := List Int

/-- Reduction of an integer to the range of a 32-bit two's complement `int`. -/
def wrap32 (x : Int) : Int := (x + 2147483648) % 4294967296 - 2147483648

/-- The largest C `int`. -/
def INT_MAX : Int := 2147483647

/-- The smallest C `int`. -/
def INT_MIN : Int := -2147483648

/-- An integer that a C `int` can hold. -/
def is_int (x : Int) : Prop := INT_MIN ≤ x ∧ x ≤ INT_MAX

instance is_int.decide (x : Int) : Decidable (is_int x) := by
  unfold is_int
  infer_instance

/-- An input every integer of which `fscanf("%d")` can store in an `int`. -/
def int_input (input : List Int) : Prop := ∀ x ∈ input, is_int x

instance int_input.decide (input : List Int) : Decidable (int_input input) := by
  unfold int_input
  infer_instance

/-- The array read `ranking[i]`. -/
def rd (ranking : Ranking) (i : Nat) : Int := ranking.getD i 0

/-- The three-assignment exchange `k = r[i]; r[i] = r[j]; r[j] = k`. -/
def swap (ranking : Ranking) (i j : Nat) : Ranking :=
  (ranking.set i (rd ranking j)).set j (rd ranking i)

/-! ## The search -/

/-- The function `initialize_ranking`: `for (i = 0; i < n; i++) ranking[i] = i`. -/
def initialize_ranking (n : Nat) : Ranking := (List.range n).map (fun (i : Nat) => (i : Int))

/-- The first loop of `next_ranking_permutation`,
`for (i = n-2; i >= 0; i--) if (ranking[i] < ranking[i+1]) break;`.
The argument is `i + 1`; the result is `none` when the loop ends with `i < 0`. -/
def pivot_scan (ranking : Ranking) : Nat → Option Nat
  | 0 => none
  | i + 1 => if rd ranking i < rd ranking (i + 1) then some i else pivot_scan ranking i

/-- The second loop of `next_ranking_permutation`,
`for (j = n-1; j > i; j--) if (ranking[i] < ranking[j]) break;`, as the value of `j`
when it ends. -/
def swap_scan (ranking : Ranking) (i : Nat) : Nat → Nat
  | 0 => 0
  | j + 1 =>
    if j + 1 > i then
      if rd ranking i < rd ranking (j + 1) then j + 1 else swap_scan ranking i j
    else j + 1

/-- The third loop of `next_ranking_permutation`: for `m = 0, …, l-1` exchange
`ranking[i+1+m]` and `ranking[n-1-m]`. -/
def reverse_tail (n i l : Nat) (ranking : Ranking) : Ranking :=
  (List.range l).foldl (fun r m => swap r (i + 1 + m) (n - 1 - m)) ranking

/-- The function `next_ranking_permutation`: the returned flag and the array it
leaves. -/
def next_ranking_permutation (n : Nat) (ranking : Ranking) : Bool × Ranking :=
  match pivot_scan ranking (n - 1) with
  | none => (false, ranking)
  | some i =>
    let j := swap_scan ranking i (n - 1)
    let r := swap ranking i j
    let l := (n - (i + 1)) / 2
    (true, reverse_tail n i l r)

/-- The function `ranking_penalty`: both loops, the accumulator `p` a C `int`. -/
def ranking_penalty (n : Nat) (weight : Weight) (ranking : Ranking) : Int :=
  (List.range n).foldl
    (fun p i =>
      (List.range' (i + 1) (n - (i + 1))).foldl
        (fun p j => wrap32 (p + weight (rd ranking i) (rd ranking j))) p)
    0

/-- The loop of `print_all_ranking_permutations` started on `ranking`: the list of
arrays its body sees, or `none` when the fuel runs out. -/
def visit_loop (n : Nat) : Nat → Ranking → Option (List Ranking)
  | 0, _ => none
  | fuel + 1, ranking =>
    match next_ranking_permutation n ranking with
    | (true, r) => (visit_loop n fuel r).map (fun rest => ranking :: rest)
    | (false, _) => some [ranking]

/-- The function `print_all_ranking_permutations`, as the list of lines printed. -/
def print_all_ranking_permutations (n fuel : Nat) : Option (List Ranking) :=
  visit_loop n fuel (initialize_ranking n)

/-- The `do … while` loop of `find_kemeny_ranking`; the state is `ranking`, `score`
and `candidate`, the result the final `candidate`. -/
def find_loop (n : Nat) (weight : Weight) : Nat → Ranking → Int → Ranking → Option Ranking
  | 0, _, _, _ => none
  | fuel + 1, ranking, score, candidate =>
    let s := ranking_penalty n weight ranking
    let score1 := if s < score then s else score
    let candidate1 := if s < score then ranking else candidate
    match next_ranking_permutation n ranking with
    | (true, r) => find_loop n weight fuel r score1 candidate1
    | (false, _) => some candidate1

/-- The function `find_kemeny_ranking`: the array `ranking` it leaves. -/
def find_kemeny_ranking (n : Nat) (weight : Weight) (fuel : Nat) : Option Ranking :=
  let ranking := initialize_ranking n
  find_loop n weight fuel ranking (ranking_penalty n weight ranking) ranking

/-! ## Array positions used by the search -/

/-- The positions of `ranking` the first loop of `next_ranking_permutation` reads:
`ranking[i]` and `ranking[i+1]` at each test.  The argument is `i + 1`, as in
`pivot_scan`. -/
def pivot_scan_accesses (ranking : Ranking) : Nat → List Nat
  | 0 => []
  | i + 1 =>
    i :: (i + 1) ::
      (if rd ranking i < rd ranking (i + 1) then [] else pivot_scan_accesses ranking i)

/-- The positions of `ranking` the second loop of `next_ranking_permutation` reads:
`ranking[i]` and `ranking[j]` at each test. -/
def swap_scan_accesses (ranking : Ranking) (i : Nat) : Nat → List Nat
  | 0 => []
  | j + 1 =>
    if j + 1 > i then
      i :: (j + 1) ::
        (if rd ranking i < rd ranking (j + 1) then [] else swap_scan_accesses ranking i j)
    else []

/-- Every position of `ranking` that `next_ranking_permutation` reads or writes: the
two scans, the exchange of `ranking[i]` and `ranking[j]`, and the exchanges of the
third loop. -/
def next_accesses (n : Nat) (ranking : Ranking) : List Nat :=
  pivot_scan_accesses ranking (n - 1) ++
    match pivot_scan ranking (n - 1) with
    | none => []
    | some i =>
      swap_scan_accesses ranking i (n - 1) ++
        [i, i, swap_scan ranking i (n - 1), swap_scan ranking i (n - 1)] ++
        (List.range ((n - (i + 1)) / 2)).flatMap
          (fun m => [i + 1 + m, i + 1 + m, n - 1 - m, n - 1 - m])

/-- The pairs of positions `(i, j)` at which `ranking_penalty` reads `ranking[i]`,
`ranking[j]` and the cell `weight[ranking[i]][ranking[j]]`. -/
def penalty_accesses (n : Nat) : List (Nat × Nat) :=
  (List.range n).flatMap (fun i => (List.range' (i + 1) (n - (i + 1))).map (fun j => (i, j)))

/-! ## Reading the input -/

/-- The diagnostics `fatal` is called with in `read_input`. -/
inductive Fatal where
  | index_out_of_bounds (v : Int)
  | negative_edge_weight (c : Int)
  | connected_bidirectionally (a b : Int)
  deriving DecidableEq, Repr

/-- The global `weight` at program start: a C global is zero-initialised. -/
def zero_weight : Weight := fun _ _ => 0

/-- The first loop nest of `read_input`: `weight[a][b] = 0` for `0 ≤ a, b < n`
(for `n ≤ 100`; a larger `n` overruns the array). -/
def clear_weight (n : Int) (weight : Weight) : Weight :=
  fun a b => if 0 ≤ a ∧ a < n ∧ 0 ≤ b ∧ b < n then 0 else weight a b

/-- The assignment `weight[b][a] = c` (of an `int` value `c`). -/
def store (weight : Weight) (a b c : Int) : Weight :=
  fun x y => if x = b ∧ y = a then c else weight x y

/-- The body of the `while` loop of `read_input`, run on the current values of the
locals `a`, `b`, `c` (values of `int` range, see `int_input`). -/
def read_edge (n : Int) (weight : Weight) (a b c : Int) : Except Fatal Weight :=
  if a ≥ n ∨ a < 0 then Except.error (Fatal.index_out_of_bounds a)
  else if b ≥ n ∨ b < 0 then Except.error (Fatal.index_out_of_bounds b)
  else if c < 0 then Except.error (Fatal.negative_edge_weight c)
  else Except.ok (store weight a b c)

/-- The `while (fscanf(fin,"%d%d%d",&a,&b,&c)!=EOF)` loop of `read_input` on the
integers left in the input; `b` and `c` are the current values of the locals.
With three or more integers left `fscanf` assigns all three locals.  With one or two
left it assigns `a`, or `a` and `b`, and returns 1 or 2, which is not `EOF`: the body
runs once more on the values the other locals still hold, and the next call returns
`EOF`.  (Input that is not a sequence of integers is outside the model.) -/
def read_edges (n : Int) : List Int → Int → Int → Weight → Except Fatal Weight
  | [], _, _, weight => Except.ok weight
  | [a], b, c, weight => read_edge n weight a b c
  | [a, b], _, c, weight => read_edge n weight a b c
  | a :: b :: c :: rest, _, _, weight =>
    match read_edge n weight a b c with
    | Except.error f => Except.error f
    | Except.ok w => read_edges n rest b c w

/-- The last loop nest of `read_input`: the first pair `(a, b)`, in the order of the
loops, with `weight[a][b] > 0 && weight[b][a] > 0`. -/
def find_conflict (n : Int) (weight : Weight) : Option (Int × Int) :=
  ((List.range n.toNat).flatMap (fun (a : Nat) =>
      (List.range n.toNat).map (fun (b : Nat) => ((a : Int), (b : Int))))).find?
    (fun ab => decide (weight ab.1 ab.2 > 0 ∧ weight ab.2 ab.1 > 0))

/-- The function `read_input` on the integers of the input: the globals
`number_of_candidates` and `weight` it leaves, or the fatal diagnostic.
`b0` and `c0` stand for the indeterminate values the locals `b` and `c` hold before
their first assignment (`b` is assigned by the first loop nest when it runs). -/
def read_input (b0 c0 : Int) (input : List Int) : Except Fatal (Int × Weight) :=
  let n := input.headD 0
  let b := if 0 < n then n else b0
  match read_edges n input.tail b c0 (clear_weight n zero_weight) with
  | Except.error f => Except.error f
  | Except.ok w =>
    match find_conflict n w with
    | some ab => Except.error (Fatal.connected_bidirectionally ab.1 ab.2)
    | none => Except.ok (n, w)

/-- The input text of an edge list: the three integers of each triple in turn. -/
def encode : List (Int × Int × Int) → List Int
  | [] => []
  | (a, b, c) :: rest => a :: b :: c :: encode rest

/-- The values the locals `b` and `c` of `read_input` hold after the triples of an edge
list have been read, `b` and `c` being their values before. -/
def stale_locals : List (Int × Int × Int) → Int → Int → Int × Int
  | [], b, c => (b, c)
  | (_, b1, c1) :: rest, _, _ => stale_locals rest b1 c1

/-! ## The program -/

/-- The global variables. -/
structure State where
  number_of_candidates : Int
  weight : Weight
  ranking : Ranking

/-- The call `next_ranking_permutation()` on the globals: it assigns only to
`ranking`. -/
def State.next_ranking_permutation (s : State) : Bool × State :=
  let res := Kemeny.next_ranking_permutation s.number_of_candidates.toNat s.ranking
  (res.1, { s with ranking := res.2 })

/-- The call `ranking_penalty()` on the globals: it assigns to none of them. -/
def State.ranking_penalty (s : State) : Int × State :=
  (Kemeny.ranking_penalty s.number_of_candidates.toNat s.weight s.ranking, s)

/-- The call `find_kemeny_ranking()` on the globals: it assigns only to `ranking`. -/
def State.find_kemeny_ranking (s : State) (fuel : Nat) : Option State :=
  (Kemeny.find_kemeny_ranking s.number_of_candidates.toNat s.weight fuel).map
    (fun r => { s with ranking := r })

/-- The function `main` after the input is opened: the ranking and the score printed
(`none` if the search runs out of fuel), or the fatal diagnostic of `read_input`. -/
def main (b0 c0 : Int) (input : List Int) (fuel : Nat) :
    Except Fatal (Option (Ranking × Int)) :=
  match read_input b0 c0 input with
  | Except.error f => Except.error f
  | Except.ok (n, w) =>
    Except.ok
      ((State.find_kemeny_ranking ⟨n, w, List.replicate n.toNat 0⟩ fuel).map
        (fun s => (s.ranking, (State.ranking_penalty s).1)))

/-! ## Specification vocabulary -/

/-- Lexicographic order on rankings. -/
def LexLt : List Int → List Int → Prop
  | [], [] => False
  | [], _ :: _ => True
  | _ :: _, [] => False
  | a :: as, b :: bs => a < b ∨ (a = b ∧ LexLt as bs)

instance LexLt.decide : (p q : List Int) → Decidable (LexLt p q)
  | [], [] => isFalse (by simp [LexLt])
  | [], _ :: _ => isTrue (by simp [LexLt])
  | _ :: _, [] => isFalse (by simp [LexLt])
  | a :: as, b :: bs =>
    have := LexLt.decide as bs
    decidable_of_iff (a < b ∨ (a = b ∧ LexLt as bs)) (by simp [LexLt])

/-- The candidates `0, 1, …, n-1`, in increasing order. -/
def candidates (n : Nat) : List Int := (List.range n).map (fun (i : Nat) => (i : Int))

/-- A ranking is a permutation of the candidates `0, …, n-1`. -/
def IsRanking (n : Nat) (p : List Int) : Prop := List.Perm p (candidates n)

instance IsRanking.decide (n : Nat) (p : List Int) : Decidable (IsRanking n p) := by
  unfold IsRanking
  infer_instance

/-- The mathematical penalty of a ranking, `Σ_{i<j} weight[π[i]][π[j]]`, over the
integers. -/
def penalty (n : Nat) (weight : Weight) (ranking : Ranking) : Int :=
  ((List.range n).map (fun i =>
    ((List.range' (i + 1) (n - (i + 1))).map
      (fun j => weight (rd ranking i) (rd ranking j))).sum)).sum

/-- The best `(score, candidate)` after the loop body of `find_kemeny_ranking` has
seen the rankings of a list in turn. -/
def scan_best (n : Nat) (weight : Weight) : List Ranking → Int × Ranking → Int × Ranking
  | [], sc => sc
  | r :: rest, sc =>
    scan_best n weight rest
      (if ranking_penalty n weight r < sc.1 then (ranking_penalty n weight r, r) else sc)

/-- Lexicographically smaller or equal. -/
def LexLe (p q : List Int) : Prop := p = q ∨ LexLt p q

/-- A triple that passes the three checks of the loop body of `read_input`. -/
def valid_edge (n : Int) (e : Int × Int × Int) : Prop :=
  0 ≤ e.1 ∧ e.1 < n ∧ 0 ≤ e.2.1 ∧ e.2.1 < n ∧ 0 ≤ e.2.2

instance valid_edge.decide (n : Int) (e : Int × Int × Int) : Decidable (valid_edge n e) := by
  unfold valid_edge
  infer_instance

/-- The assignments `weight[b][a] = c` of an edge list, in input order. -/
def store_edges (weight : Weight) : List (Int × Int × Int) → Weight
  | [] => weight
  | (a, b, c) :: rest => store_edges (store weight a b c) rest

/-- The margin of the last triple of an edge list that names the ordered pair
`(a, b)`, if there is one. -/
def last_margin : List (Int × Int × Int) → Int → Int → Option Int
  | [], _, _ => none
  | (a0, b0, c0) :: rest, a, b =>
    match last_margin rest a b with
    | some c => some c
    | none => if a0 = a ∧ b0 = b then some c0 else none

/-- The sum of the margins `c` of the triples `(a, b, c)` of an edge list for which the
ranking places `b` before `a`. -/
def disagreement (es : List (Int × Int × Int)) (p : Ranking) : Int :=
  ((es.filter (fun e => decide (p.indexOf e.2.1 < p.indexOf e.1))).map (fun e => e.2.2)).sum

/-- The edge list of a preference cycle of margin `c` on three candidates. -/
def cycle_edges (c : Int) : List (Int × Int × Int) := [(0, 1, c), (1, 2, c), (2, 0, c)]

/-! ## Lemmas -/

open Nat

theorem lexLt_irrefl (p : List Int) : ¬ LexLt p p := by
  induction p with
  | nil => simp [LexLt]
  | cons a p ih => simp [LexLt, ih]

theorem lexLt_trans : ∀ (p q r : List Int), LexLt p q → LexLt q r → LexLt p r
  | [], [], _, h, _ => by simp [LexLt] at h
  | [], _ :: _, [], _, h => by simp [LexLt] at h
  | [], _ :: _, _ :: _, _, _ => by simp [LexLt]
  | _ :: _, [], _, h, _ => by simp [LexLt] at h
  | _ :: _, _ :: _, [], _, h => by simp [LexLt] at h
  | a :: p, b :: q, c :: r, h1, h2 => by
    simp only [LexLt] at h1 h2 ⊢
    rcases h1 with h1 | ⟨rfl, h1⟩
    · rcases h2 with h2 | ⟨rfl, _⟩
      · exact Or.inl (lt_trans h1 h2)
      · exact Or.inl h1
    · rcases h2 with h2 | ⟨rfl, h2⟩
      · exact Or.inl h2
      · exact Or.inr ⟨rfl, lexLt_trans p q r h1 h2⟩

theorem lexLt_asymm (p q : List Int) (h1 : LexLt p q) (h2 : LexLt q p) : False :=
  lexLt_irrefl p (lexLt_trans p q p h1 h2)

theorem lexLt_total : ∀ (p q : List Int), p.length = q.length → p ≠ q → LexLt p q ∨ LexLt q p
  | [], [], _, h => by simp at h
  | [], _ :: _, h, _ => by simp at h
  | _ :: _, [], h, _ => by simp at h
  | a :: p, b :: q, hl, hne => by
    simp only [LexLt]
    rcases lt_trichotomy a b with h | h | h
    · exact Or.inl (Or.inl h)
    · subst h
      have hl2 : p.length = q.length := by simpa using hl
      have hne2 : p ≠ q := fun e => hne (by rw [e])
      rcases lexLt_total p q hl2 hne2 with h | h
      · exact Or.inl (Or.inr ⟨rfl, h⟩)
      · exact Or.inr (Or.inr ⟨rfl, h⟩)
    · exact Or.inr (Or.inl h)

theorem lexLt_append_left (pre a b : List Int) : LexLt (pre ++ a) (pre ++ b) ↔ LexLt a b := by
  induction pre with
  | nil => simp
  | cons h t ih => simp [LexLt, ih]

theorem lexLt_between (pre a b : List Int) :
    ∀ r, LexLt (pre ++ a) r → LexLt r (pre ++ b) → ∃ c, r = pre ++ c ∧ LexLt a c ∧ LexLt c b := by
  induction pre with
  | nil => intro r h1 h2; exact ⟨r, rfl, h1, h2⟩
  | cons h t ih =>
    intro r h1 h2
    cases r with
    | nil => simp [LexLt] at h1
    | cons z r =>
      simp only [List.cons_append, LexLt] at h1 h2
      have hz : h = z := by
        rcases h1 with h1 | ⟨h1, _⟩
        · rcases h2 with h2 | ⟨h2, _⟩
          · omega
          · omega
        · exact h1
      subst hz
      simp only [lt_irrefl, true_and, false_or] at h1 h2
      obtain ⟨c, rfl, hc1, hc2⟩ := ih r h1 h2
      exact ⟨c, rfl, hc1, hc2⟩

/-- A non-increasing list is the lexicographically largest arrangement of its elements. -/
theorem lexLt_desc_max : ∀ (s c : List Int), s.Pairwise (fun u v => v ≤ u) → c.Perm s → ¬ LexLt s c
  | [], c, _, hp => by
    have : c = [] := List.Perm.eq_nil hp
    subst this; simp [LexLt]
  | h :: t, [], _, hp => by simpa using hp.length_eq
  | h :: t, z :: c, hs, hp => by
    simp only [LexLt]
    have hz : z ∈ h :: t := hp.subset (List.mem_cons_self _ _)
    have hzle : z ≤ h := by
      rcases List.mem_cons.1 hz with e | hm
      · omega
      · exact (List.pairwise_cons.1 hs).1 z hm
    rintro (hlt | ⟨rfl, hlt⟩)
    · omega
    · exact lexLt_desc_max t c (List.pairwise_cons.1 hs).2 ((List.perm_cons _).1 hp) hlt

/-- A non-decreasing list is the lexicographically smallest arrangement of its elements. -/
theorem lexLt_asc_min : ∀ (s c : List Int), s.Pairwise (fun u v => u ≤ v) → c.Perm s → ¬ LexLt c s
  | [], c, _, hp => by
    have : c = [] := List.Perm.eq_nil hp
    subst this; simp [LexLt]
  | h :: t, [], _, hp => by simpa using hp.length_eq
  | h :: t, z :: c, hs, hp => by
    simp only [LexLt]
    have hz : z ∈ h :: t := hp.subset (List.mem_cons_self _ _)
    have hzle : h ≤ z := by
      rcases List.mem_cons.1 hz with e | hm
      · omega
      · exact (List.pairwise_cons.1 hs).1 z hm
    rintro (hlt | ⟨rfl, hlt⟩)
    · omega
    · exact lexLt_asc_min t c (List.pairwise_cons.1 hs).2 ((List.perm_cons _).1 hp) hlt


theorem succ_shape_lt (pre a b : List Int) (x y : Int) (hxy : x < y) (s : List Int) :
    LexLt (pre ++ x :: (a ++ y :: b)) (pre ++ y :: s) := by
  rw [lexLt_append_left]
  exact Or.inl hxy

theorem succ_shape_immediate (pre a b : List Int) (x y : Int) (hxy : x < y)
    (hs : (a ++ y :: b).Pairwise (fun u v => v ≤ u)) (hb : ∀ z ∈ b, z ≤ x)
    (r : List Int) (hr : r.Perm (pre ++ x :: (a ++ y :: b)))
    (h1 : LexLt (pre ++ x :: (a ++ y :: b)) r)
    (h2 : LexLt r (pre ++ y :: (a ++ x :: b).reverse)) : False := by
  obtain ⟨c, rfl, hc1, hc2⟩ := lexLt_between pre _ _ r h1 h2
  have hc : c.Perm (x :: (a ++ y :: b)) := (List.perm_append_left_iff pre).1 hr
  have ha : ∀ z ∈ a, y ≤ z := by
    intro z hz
    have := List.pairwise_append.1 hs
    exact this.2.2 z hz y (List.mem_cons_self _ _)
  have hby : ∀ z ∈ b, z ≤ y := fun z hz => le_of_lt (lt_of_le_of_lt (hb z hz) hxy)
  cases c with
  | nil => simp [LexLt] at hc1
  | cons z c =>
    simp only [LexLt] at hc1 hc2
    have hz : z ∈ x :: (a ++ y :: b) := hc.subset (List.mem_cons_self _ _)
    have hzxy : z = x ∨ z = y := by
      have hle1 : x ≤ z := by rcases hc1 with h | ⟨h, _⟩ <;> omega
      have hle2 : z ≤ y := by rcases hc2 with h | ⟨h, _⟩ <;> omega
      simp only [List.mem_cons, List.mem_append] at hz
      rcases hz with h | h | h | h
      · exact Or.inl h
      · have := ha z h; exact Or.inr (by omega)
      · exact Or.inr h
      · have := hb z h; exact Or.inl (by omega)
    rcases hzxy with rfl | rfl
    · -- the tail is an arrangement of the non-increasing suffix
      have hlt : LexLt (a ++ y :: b) c := by
        rcases hc1 with h | ⟨_, h⟩
        · omega
        · exact h
      exact lexLt_desc_max _ c hs ((List.perm_cons _).1 hc) hlt
    · have hlt : LexLt c (a ++ x :: b).reverse := by
        rcases hc2 with h | ⟨_, h⟩
        · omega
        · exact h
      have hperm : c.Perm (a ++ x :: b).reverse := by
        have e1 : (x :: (a ++ z :: b)).Perm (z :: (a ++ x :: b)) := by
          have := (@List.perm_middle _ z (x :: a) b)
          refine this.trans ?_
          refine List.Perm.cons _ ?_
          simpa using (@List.perm_middle _ x a b).symm
        have := (List.perm_cons _).1 (hc.trans e1)
        exact this.trans (List.reverse_perm _).symm
      have hsorted : (a ++ x :: b).reverse.Pairwise (fun u v => u ≤ v) := by
        rw [List.pairwise_reverse]
        have h0 := List.pairwise_append.1 hs
        rw [List.pairwise_append]
        refine ⟨h0.1, ?_, ?_⟩
        · rw [List.pairwise_cons]
          exact ⟨hb, (List.pairwise_cons.1 h0.2.1).2⟩
        · intro u hu v hv
          rcases List.mem_cons.1 hv with rfl | hv
          · have := ha u hu; omega
          · exact h0.2.2 u hu v (List.mem_cons_of_mem _ hv)
      exact lexLt_asc_min _ c hsorted hperm hlt

theorem rd_eq (r : Ranking) (i : Nat) : rd r i = r[i]?.getD 0 := by
  simp [rd, List.getD_eq_getElem?_getD]

theorem pivot_scan_none (r : Ranking) : ∀ k, pivot_scan r k = none →
    ∀ m, m < k → ¬ rd r m < rd r (m + 1)
  | 0, _, m, hm => by omega
  | k + 1, h, m, hm => by
    simp only [pivot_scan] at h
    split at h
    · simp at h
    · rename_i hk
      rcases Nat.lt_succ_iff_lt_or_eq.1 hm with hm2 | rfl
      · exact pivot_scan_none r k h m hm2
      · exact hk

theorem pivot_scan_some (r : Ranking) (i : Nat) : ∀ k, pivot_scan r k = some i →
    i < k ∧ rd r i < rd r (i + 1) ∧ ∀ m, i < m → m < k → ¬ rd r m < rd r (m + 1)
  | 0, h => by simp [pivot_scan] at h
  | k + 1, h => by
    simp only [pivot_scan] at h
    split at h
    · rename_i hk
      simp only [Option.some.injEq] at h
      subst h
      exact ⟨by omega, hk, fun m h1 h2 => by omega⟩
    · rename_i hk
      obtain ⟨h1, h2, h3⟩ := pivot_scan_some r i k h
      refine ⟨by omega, h2, fun m hm1 hm2 => ?_⟩
      rcases Nat.lt_succ_iff_lt_or_eq.1 hm2 with hm2 | rfl
      · exact h3 m hm1 hm2
      · exact hk

theorem swap_scan_spec (r : Ranking) (i : Nat) (hi : rd r i < rd r (i + 1)) : ∀ j0, i < j0 →
    i < swap_scan r i j0 ∧ swap_scan r i j0 ≤ j0 ∧ rd r i < rd r (swap_scan r i j0) ∧
      ∀ m, swap_scan r i j0 < m → m ≤ j0 → ¬ rd r i < rd r m
  | 0, h => by omega
  | j + 1, h => by
    simp only [swap_scan]
    rw [if_pos (by omega)]
    split
    · rename_i hj
      exact ⟨h, le_refl _, hj, fun m h1 h2 => by omega⟩
    · rename_i hj
      rcases Nat.lt_succ_iff_lt_or_eq.1 h with hm2 | rfl
      · obtain ⟨h1, h2, h3, h4⟩ := swap_scan_spec r i hi j hm2
        refine ⟨h1, by omega, h3, fun m hm1 hm2 => ?_⟩
        rcases Nat.lt_succ_iff_lt_or_eq.1 (Nat.lt_succ_of_le hm2) with hm3 | rfl
        · exact h4 m hm1 (by omega)
        · exact hj
      · exact absurd hi hj

theorem reverse_tail_succ (n i m : Nat) (r : Ranking) :
    reverse_tail n i (m + 1) r = swap (reverse_tail n i m r) (i + 1 + m) (n - 1 - m) := by
  simp [reverse_tail, List.range_succ, List.foldl_append]

theorem swap_length (r : Ranking) (i j : Nat) : (swap r i j).length = r.length := by
  simp [swap]

theorem swap_getElem? (r : Ranking) (i j k : Nat) (hi : i < r.length) (hj : j < r.length) :
    (swap r i j)[k]? = if k = j then r[i]? else if k = i then r[j]? else r[k]? := by
  simp only [swap, rd_eq, List.getElem?_set, List.length_set]
  have e1 : r[i]? = some r[i] := List.getElem?_eq_getElem hi
  have e2 : r[j]? = some r[j] := List.getElem?_eq_getElem hj
  by_cases h1 : k = j
  · subst h1; simp [hi, hj, e1]
  · by_cases h2 : k = i
    · subst h2; simp [hj, hi, e2, h1, Ne.symm h1]
    · simp [h1, h2, Ne.symm h1, Ne.symm h2]

theorem reverse_tail_inv (n i : Nat) (r : Ranking) (hn : r.length = n) :
    ∀ m, 2 * m + i + 1 ≤ n →
      (reverse_tail n i m r).length = n ∧
      ∀ k, (reverse_tail n i m r)[k]? =
        if i + 1 ≤ k ∧ k < n ∧ (k < i + 1 + m ∨ n - 1 - m < k) then r[n + i - k]? else r[k]?
  | 0, _ => by
    refine ⟨by simpa [reverse_tail] using hn, fun k => ?_⟩
    have : ¬ (i + 1 ≤ k ∧ k < n ∧ (k < i + 1 + 0 ∨ n - 1 - 0 < k)) := by omega
    rw [if_neg this]
    simp [reverse_tail]
  | m + 1, hm => by
    obtain ⟨hl, hk⟩ := reverse_tail_inv n i r hn m (by omega)
    rw [reverse_tail_succ]
    refine ⟨by rw [swap_length, hl], fun k => ?_⟩
    rw [swap_getElem? _ _ _ _ (by omega) (by omega), hk, hk, hk]
    by_cases h1 : k = n - 1 - m
    · subst h1
      rw [if_pos rfl, if_neg (by omega), if_pos (by omega)]
      congr 1
      omega
    · rw [if_neg h1]
      by_cases h2 : k = i + 1 + m
      · subst h2
        rw [if_pos rfl, if_neg (by omega), if_pos (by omega)]
        congr 1
        omega
      · rw [if_neg h2]
        by_cases h3 : i + 1 ≤ k ∧ k < n ∧ (k < i + 1 + m ∨ n - 1 - m < k)
        · rw [if_pos h3, if_pos (by omega)]
        · rw [if_neg h3, if_neg (by omega)]

theorem reverse_tail_spec (pre s : List Int) (n i : Nat) (hi : pre.length = i + 1)
    (hn : (pre ++ s).length = n) :
    reverse_tail n i ((n - (i + 1)) / 2) (pre ++ s) = pre ++ s.reverse := by
  have hlen : pre.length + s.length = n := by simpa using hn
  have hs : s.length = n - (i + 1) := by omega
  obtain ⟨hl, hk⟩ := reverse_tail_inv n i (pre ++ s) hn ((n - (i + 1)) / 2) (by omega)
  apply List.ext_getElem?
  intro k
  rw [hk]
  by_cases h1 : k < i + 1
  · rw [if_neg (by omega), List.getElem?_append_left (by omega), List.getElem?_append_left (by omega)]
  · by_cases h2 : k < n
    · rw [@List.getElem?_append_right _ pre s.reverse k (by omega),
        List.getElem?_reverse (by omega)]
      by_cases h3 : k < i + 1 + (n - (i + 1)) / 2 ∨ n - 1 - (n - (i + 1)) / 2 < k
      · rw [if_pos ⟨by omega, h2, h3⟩, List.getElem?_append_right (by omega)]
        congr 1
        omega
      · rw [if_neg (by tauto), List.getElem?_append_right (by omega)]
        congr 1
        omega
    · rw [if_neg (by omega)]
      rw [List.getElem?_eq_none (by omega), List.getElem?_eq_none (by simp; omega)]

theorem rd_append_add (pre suf : List Int) (k : Nat) :
    rd (pre ++ suf) (pre.length + k) = rd suf k := by
  rw [rd_eq, rd_eq, List.getElem?_append_right (by omega)]
  congr 2
  omega

theorem rd_append_length (pre suf : List Int) (x : Int) :
    rd (pre ++ x :: suf) pre.length = x := by
  have := rd_append_add pre (x :: suf) 0
  simpa [rd] using this

theorem rd_cons_succ (x : Int) (suf : List Int) (k : Nat) : rd (x :: suf) (k + 1) = rd suf k := by
  simp [rd]

theorem rd_of_lt (r : List Int) (k : Nat) (h : k < r.length) : rd r k = r[k] := by
  rw [rd_eq, List.getElem?_eq_getElem h]; rfl

theorem split_at (r : List Int) (i : Nat) (hi : i < r.length) :
    ∃ pre x suf, r = pre ++ x :: suf ∧ pre.length = i :=
  ⟨r.take i, r[i], r.drop (i + 1), by
    rw [← List.drop_eq_getElem_cons hi, List.take_append_drop],
    by simp; omega⟩

theorem desc_of_adjacent : ∀ (s : List Int),
    (∀ k, k + 1 < s.length → ¬ rd s k < rd s (k + 1)) → s.Pairwise (fun u v => v ≤ u)
  | [], _ => List.Pairwise.nil
  | [_], _ => by simp
  | u :: v :: s, h => by
    have ih : (v :: s).Pairwise (fun u v => v ≤ u) :=
      desc_of_adjacent (v :: s) (fun k hk => by
        have := h (k + 1) (by simpa using hk)
        simpa [rd_cons_succ] using this)
    have huv : v ≤ u := by
      have := h 0 (by simp)
      simpa [rd] using this
    refine List.pairwise_cons.2 ⟨fun z hz => ?_, ih⟩
    rcases List.mem_cons.1 hz with rfl | hz
    · exact huv
    · exact le_trans ((List.pairwise_cons.1 ih).1 z hz) huv

theorem swap_shape (pre a b : List Int) (x y : Int) :
    swap (pre ++ x :: (a ++ y :: b)) pre.length (pre.length + (a.length + 1)) =
      pre ++ y :: (a ++ x :: b) := by
  have e1 : rd (pre ++ x :: (a ++ y :: b)) pre.length = x := rd_append_length _ _ _
  have e2 : rd (pre ++ x :: (a ++ y :: b)) (pre.length + (a.length + 1)) = y := by
    rw [rd_append_add, rd_cons_succ]
    simpa using rd_append_length a b y
  rw [swap, e1, e2]
  simp [List.set_append]

/-- The array left by a successful `next_ranking_permutation`, in list form. -/
theorem next_shape (n : Nat) (r : Ranking) (hn : r.length = n) (i : Nat)
    (h : pivot_scan r (n - 1) = some i) :
    ∃ pre x a y b, r = pre ++ x :: (a ++ y :: b) ∧ x < y ∧
      (a ++ y :: b).Pairwise (fun u v => v ≤ u) ∧ (∀ z ∈ b, z ≤ x) ∧
      next_ranking_permutation n r = (true, pre ++ y :: (a ++ x :: b).reverse) := by
  obtain ⟨hi, hlt, hchain⟩ := pivot_scan_some r i (n - 1) h
  obtain ⟨hj1, hj2, hj3, hj4⟩ := swap_scan_spec r i hlt (n - 1) hi
  generalize hj : swap_scan r i (n - 1) = j at hj1 hj2 hj3 hj4
  obtain ⟨pre, x, suf, rfl, hpre⟩ := split_at r i (by omega)
  have hsuf : suf.length = n - (i + 1) := by simp at hn; omega
  obtain ⟨a, y, b, rfl, ha⟩ := split_at suf (j - (i + 1)) (by omega)
  subst hpre
  have hjeq : j = pre.length + (a.length + 1) := by omega
  subst hjeq
  have ex : rd (pre ++ x :: (a ++ y :: b)) pre.length = x := rd_append_length _ _ _
  have ey : rd (pre ++ x :: (a ++ y :: b)) (pre.length + (a.length + 1)) = y := by
    rw [rd_append_add, rd_cons_succ]
    simpa using rd_append_length a b y
  rw [ex, ey] at hj3
  refine ⟨pre, x, a, y, b, rfl, hj3, ?_, ?_, ?_⟩
  · apply desc_of_adjacent
    intro k hk
    have := hchain (pre.length + (k + 1)) (by omega) (by omega)
    rw [show pre.length + (k + 1) + 1 = pre.length + (k + 1 + 1) by omega,
      rd_append_add, rd_append_add, rd_cons_succ, rd_cons_succ] at this
    exact this
  · intro z hz
    obtain ⟨k, hk, rfl⟩ := List.getElem_of_mem hz
    have := hj4 (pre.length + ((a.length + (k + 1)) + 1)) (by omega) (by simp at hn; omega)
    have e : rd (a ++ y :: b) (a.length + (k + 1)) = b[k] := by
      rw [rd_append_add, rd_cons_succ, rd_of_lt b k hk]
    rw [ex, rd_append_add, rd_cons_succ, e] at this
    omega
  · simp only [next_ranking_permutation, h, hj]
    rw [swap_shape]
    have := reverse_tail_spec (pre ++ [y]) (a ++ x :: b) n pre.length (by simp)
      (by simpa using hn)
    simpa using this

/-- A failed `next_ranking_permutation` means the array is non-increasing. -/
theorem next_none_desc (n : Nat) (r : Ranking) (hn : r.length = n)
    (h : pivot_scan r (n - 1) = none) : r.Pairwise (fun u v => v ≤ u) := by
  apply desc_of_adjacent
  intro k hk
  exact pivot_scan_none r (n - 1) h k (by omega)

theorem initialize_ranking_length (n : Nat) : (initialize_ranking n).length = n := by
  simp [initialize_ranking]

theorem initialize_ranking_nodup (n : Nat) : (initialize_ranking n).Nodup := by
  unfold initialize_ranking
  exact (List.nodup_range n).map (fun a b h => by simpa using h)

theorem initialize_ranking_asc (n : Nat) :
    (initialize_ranking n).Pairwise (fun u v => u ≤ v) := by
  unfold initialize_ranking
  rw [List.pairwise_map]
  exact (List.pairwise_lt_range n).imp (fun h => by exact_mod_cast le_of_lt h)

/-- The array `initialize_ranking` builds is the list of candidates in increasing
order. -/
theorem initialize_ranking_eq (n : Nat) : initialize_ranking n = candidates n := rfl

theorem IsRanking.length {n : Nat} {p : List Int} (h : IsRanking n p) : p.length = n := by
  have h2 : p.Perm (initialize_ranking n) := h
  rw [h2.length_eq, initialize_ranking_length]

theorem IsRanking.nodup {n : Nat} {p : List Int} (h : IsRanking n p) : p.Nodup :=
  h.nodup_iff.2 (initialize_ranking_nodup n)

theorem strict_of_desc_nodup {p : List Int} (hd : p.Pairwise (fun u v => v ≤ u))
    (hn : p.Nodup) : p.Pairwise (fun u v => v < u) := by
  have := hd.and hn
  exact this.imp (fun h => lt_of_le_of_ne h.1 (Ne.symm h.2))

/-- What `next_ranking_permutation` does on a ranking. -/
theorem next_on_ranking (n : Nat) (p : List Int) (hp : IsRanking n p) :
    (next_ranking_permutation n p = (false, p) ∧ p.Pairwise (fun u v => v < u)) ∨
    (∃ q, next_ranking_permutation n p = (true, q) ∧ IsRanking n q ∧ LexLt p q ∧
      ∀ r, IsRanking n r → LexLt p r → LexLt r q → False) := by
  cases h : pivot_scan p (n - 1) with
  | none =>
    left
    refine ⟨by simp [next_ranking_permutation, h], ?_⟩
    exact strict_of_desc_nodup (next_none_desc n p hp.length h) hp.nodup
  | some i =>
    right
    obtain ⟨pre, x, a, y, b, rfl, hxy, hs, hb, hnext⟩ := next_shape n p hp.length i h
    refine ⟨_, hnext, ?_, succ_shape_lt pre a b x y hxy _, ?_⟩
    · refine List.Perm.trans ?_ hp
      refine List.Perm.append_left pre ?_
      have e1 : (y :: (a ++ x :: b)).Perm (x :: (a ++ y :: b)) := by
        refine (List.Perm.cons y (@List.perm_middle _ x a b)).trans ?_
        refine (List.Perm.swap x y (a ++ b)).trans ?_
        exact List.Perm.cons x (@List.perm_middle _ y a b).symm
      exact (List.Perm.cons y (List.reverse_perm _)).trans e1
    · intro r hr h1 h2
      exact succ_shape_immediate pre a b x y hxy hs hb r (hr.trans hp.symm) h1 h2

/-- The rankings that come lexicographically after `p`. -/
theorem later_card_lt (n : Nat) (p q : List Int) (hq : IsRanking n q) (hpq : LexLt p q) :
    (((initialize_ranking n).permutations.toFinset).filter (fun r => LexLt q r)).card <
      (((initialize_ranking n).permutations.toFinset).filter (fun r => LexLt p r)).card := by
  apply Finset.card_lt_card
  rw [Finset.ssubset_iff_of_subset]
  · refine ⟨q, ?_, ?_⟩
    · simp only [Finset.mem_filter, List.mem_toFinset, List.mem_permutations]
      exact ⟨hq, hpq⟩
    · simp only [Finset.mem_filter, not_and]
      intro _
      exact lexLt_irrefl q
  · intro r hr
    simp only [Finset.mem_filter] at hr ⊢
    exact ⟨hr.1, lexLt_trans p q r hpq hr.2⟩

/-- The visiting loop started on a ranking `p` ends, and visits exactly the rankings
from `p` on, in increasing order. -/
theorem visit_loop_spec (n : Nat) : ∀ (k : Nat) (p : List Int), IsRanking n p →
    (((initialize_ranking n).permutations.toFinset).filter (fun r => LexLt p r)).card = k →
    ∃ L : List Ranking, (∀ fuel, L.length ≤ fuel → visit_loop n fuel p = some L) ∧
      L.head? = some p ∧ L.Pairwise LexLt ∧
      (∀ r, r ∈ L ↔ IsRanking n r ∧ (r = p ∨ LexLt p r)) ∧
      (∃ d, L.getLast? = some d ∧ d.Pairwise (fun u v => v < u)) := by
  intro k
  induction k using Nat.strong_induction_on with
  | _ k ih =>
    intro p hp hk
    rcases next_on_ranking n p hp with ⟨hnext, hdesc⟩ | ⟨q, hnext, hq, hpq, himm⟩
    · refine ⟨[p], ?_, rfl, by simp, ?_, ⟨p, rfl, hdesc⟩⟩
      · intro fuel hf
        obtain ⟨f, rfl⟩ : ∃ f, fuel = f + 1 := ⟨fuel - 1, by simp at hf; omega⟩
        simp [visit_loop, hnext]
      · intro r
        simp only [List.mem_singleton]
        constructor
        · rintro rfl; exact ⟨hp, Or.inl rfl⟩
        · rintro ⟨hr, rfl | hlt⟩
          · rfl
          · exact absurd hlt
              (lexLt_desc_max p r (hdesc.imp (fun h => le_of_lt h)) (hr.trans hp.symm))
    · obtain ⟨L, hfuel, hhead, hsorted, hmem, hlast⟩ :=
        ih _ (by rw [← hk]; exact later_card_lt n p q hq hpq) q hq rfl
      have hLne : L ≠ [] := by
        intro e; rw [e] at hhead; simp at hhead
      refine ⟨p :: L, ?_, rfl, ?_, ?_, ?_⟩
      · intro fuel hf
        obtain ⟨f, rfl⟩ : ∃ f, fuel = f + 1 := ⟨fuel - 1, by simp at hf; omega⟩
        simp only [visit_loop, hnext]
        rw [hfuel f (by simpa using hf)]
        rfl
      · refine List.pairwise_cons.2 ⟨fun r hr => ?_, hsorted⟩
        rcases ((hmem r).1 hr).2 with rfl | h
        · exact hpq
        · exact lexLt_trans p q r hpq h
      · intro r
        simp only [List.mem_cons, hmem]
        constructor
        · rintro (rfl | ⟨hr, rfl | hlt⟩)
          · exact ⟨hp, Or.inl rfl⟩
          · exact ⟨hr, Or.inr hpq⟩
          · exact ⟨hr, Or.inr (lexLt_trans p q r hpq hlt)⟩
        · rintro ⟨hr, rfl | hlt⟩
          · exact Or.inl rfl
          · right
            refine ⟨hr, ?_⟩
            by_cases e : r = q
            · exact Or.inl e
            · rcases lexLt_total r q (by rw [hr.length, hq.length]) e with h | h
              · exact absurd h (fun h => himm r hr hlt h)
              · exact Or.inr h
      · obtain ⟨d, hd, hdd⟩ := hlast
        refine ⟨d, ?_, hdd⟩
        cases L with
        | nil => exact absurd rfl hLne
        | cons u L => simpa [List.getLast?_cons_cons] using hd

theorem find_loop_eq (n : Nat) (w : Weight) : ∀ (fuel : Nat) (p : Ranking) (L : List Ranking)
    (s : Int) (c : Ranking), visit_loop n fuel p = some L →
    find_loop n w fuel p s c = some (scan_best n w L (s, c)).2
  | 0, _, _, _, _, h => by simp [visit_loop] at h
  | fuel + 1, p, L, s, c, h => by
    simp only [visit_loop] at h
    simp only [find_loop]
    rcases hnext : next_ranking_permutation n p with ⟨flag, q⟩
    rw [hnext] at h
    cases flag with
    | true =>
      simp only [Option.map_eq_some'] at h
      obtain ⟨rest, hrest, rfl⟩ := h
      have := find_loop_eq n w fuel q rest
        (if ranking_penalty n w p < s then ranking_penalty n w p else s)
        (if ranking_penalty n w p < s then p else c) hrest
      simp only [this, scan_best]
      split <;> rfl
    | false =>
      simp only [Option.some.injEq] at h
      subst h
      simp only [scan_best]
      split <;> rfl

theorem lexLe_trans {p q r : List Int} (h1 : LexLe p q) (h2 : LexLe q r) : LexLe p r := by
  rcases h1 with rfl | h1
  · exact h2
  · rcases h2 with rfl | h2
    · exact Or.inr h1
    · exact Or.inr (lexLt_trans _ _ _ h1 h2)

theorem scan_best_spec (n : Nat) (w : Weight) : ∀ (L : List Ranking) (s : Int) (c : Ranking),
    s = ranking_penalty n w c → (c :: L).Pairwise LexLe →
    (scan_best n w L (s, c)).1 = ranking_penalty n w (scan_best n w L (s, c)).2 ∧
    (scan_best n w L (s, c)).2 ∈ c :: L ∧
    (∀ r ∈ c :: L, (scan_best n w L (s, c)).1 ≤ ranking_penalty n w r) ∧
    (∀ r ∈ c :: L, ranking_penalty n w r = (scan_best n w L (s, c)).1 →
      LexLe (scan_best n w L (s, c)).2 r)
  | [], s, c, hs, _ => by
    simp only [scan_best, List.mem_singleton, forall_eq]
    exact ⟨hs, trivial, le_of_eq hs, fun _ => Or.inl rfl⟩
  | r0 :: L, s, c, hs, hpw => by
    simp only [scan_best]
    have hpw0 : (r0 :: L).Pairwise LexLe := (List.pairwise_cons.1 hpw).2
    have hpwc : (c :: L).Pairwise LexLe :=
      hpw.sublist (List.Sublist.cons₂ c (List.sublist_cons_self r0 L))
    by_cases h : ranking_penalty n w r0 < s
    · rw [if_pos h]
      obtain ⟨e1, e2, e3, e4⟩ := scan_best_spec n w L (ranking_penalty n w r0) r0 rfl hpw0
      refine ⟨e1, List.mem_cons_of_mem _ e2, ?_, ?_⟩
      · intro r hr
        rcases List.mem_cons.1 hr with rfl | hr
        · have := e3 r0 (List.mem_cons_self _ _)
          omega
        · exact e3 r hr
      · intro r hr hpen
        rcases List.mem_cons.1 hr with rfl | hr
        · have := e3 r0 (List.mem_cons_self _ _)
          omega
        · exact e4 r hr hpen
    · rw [if_neg h]
      obtain ⟨e1, e2, e3, e4⟩ := scan_best_spec n w L s c hs hpwc
      refine ⟨e1, ?_, ?_, ?_⟩
      · rcases List.mem_cons.1 e2 with e | e
        · rw [e]; exact List.mem_cons_self _ _
        · exact List.mem_cons_of_mem _ (List.mem_cons_of_mem _ e)
      · intro r hr
        rcases List.mem_cons.1 hr with rfl | hr
        · exact e3 r (List.mem_cons_self _ _)
        · rcases List.mem_cons.1 hr with rfl | hr
          · have := e3 c (List.mem_cons_self _ _)
            omega
          · exact e3 r (List.mem_cons_of_mem _ hr)
      · intro r hr hpen
        rcases List.mem_cons.1 hr with rfl | hr
        · exact e4 r (List.mem_cons_self _ _) hpen
        · rcases List.mem_cons.1 hr with rfl | hr
          · have h3 := e3 c (List.mem_cons_self _ _)
            have h4 := e4 c (List.mem_cons_self _ _) (by omega)
            exact lexLe_trans h4 ((List.pairwise_cons.1 hpw).1 r (List.mem_cons_self _ _))
          · exact e4 r (List.mem_cons_of_mem _ hr) hpen


theorem lexLe_initialize (n : Nat) (r : List Int) (hr : IsRanking n r) :
    r = initialize_ranking n ∨ LexLt (initialize_ranking n) r := by
  by_cases e : r = initialize_ranking n
  · exact Or.inl e
  · rcases lexLt_total r _ (by rw [hr.length, initialize_ranking_length]) e with h | h
    · exact absurd h (lexLt_asc_min _ r (initialize_ranking_asc n) hr)
    · exact Or.inr h

theorem desc_ranking_eq (n : Nat) (d : List Int) (hd : IsRanking n d)
    (hdesc : d.Pairwise (fun u v => v < u)) : d = (initialize_ranking n).reverse := by
  have h1 : d.Sorted (· ≥ ·) := hdesc.imp (fun h => le_of_lt h)
  have h2 : (initialize_ranking n).reverse.Sorted (· ≥ ·) := by
    show List.Pairwise _ _
    rw [List.pairwise_reverse]
    exact initialize_ranking_asc n
  exact List.eq_of_perm_of_sorted (hd.trans (List.reverse_perm _).symm) h1 h2

/-- The loop of `print_all_ranking_permutations`, started by `initialize_ranking`, ends
within `n!` iterations and visits every ranking once, in increasing order. -/
theorem enumeration (n : Nat) :
    ∃ L : List Ranking,
      (∀ fuel, n ! ≤ fuel → visit_loop n fuel (initialize_ranking n) = some L) ∧
      L.length = n ! ∧ L.head? = some (initialize_ranking n) ∧ L.Pairwise LexLt ∧
      (∀ r, r ∈ L ↔ IsRanking n r) ∧ L.getLast? = some (initialize_ranking n).reverse := by
  obtain ⟨L, hfuel, hhead, hsorted, hmem, d, hd, hdesc⟩ :=
    visit_loop_spec n _ (initialize_ranking n) (List.Perm.refl _) rfl
  have hmem2 : ∀ r, r ∈ L ↔ IsRanking n r := by
    intro r
    rw [hmem]
    exact ⟨fun h => h.1, fun h => ⟨h, lexLe_initialize n r h⟩⟩
  have hnodup : L.Nodup := by
    refine hsorted.imp ?_
    intro a b h e
    rw [e] at h
    exact lexLt_irrefl b h
  have hlen : L.length = n ! := by
    have hperm : L.Perm (initialize_ranking n).permutations := by
      rw [List.perm_ext_iff_of_nodup hnodup (List.nodup_permutations _ (initialize_ranking_nodup n))]
      intro r
      rw [hmem2, List.mem_permutations]
      rfl
    rw [hperm.length_eq, List.length_permutations, initialize_ranking_length]
  refine ⟨L, fun fuel hf => hfuel fuel (by omega), hlen, hhead, hsorted, hmem2, ?_⟩
  rw [hd]
  have hdL : d ∈ L := List.mem_of_getLast?_eq_some hd
  rw [desc_ranking_eq n d ((hmem2 d).1 hdL) hdesc]

theorem wrap32_add (a b : Int) : wrap32 (wrap32 a + b) = wrap32 (a + b) := by
  unfold wrap32
  omega

theorem wrap32_of_range (a : Int) (h0 : 0 ≤ a) (h1 : a ≤ INT_MAX) : wrap32 a = a := by
  unfold wrap32 INT_MAX at *
  omega

theorem inner_fold (f : Nat → Int) : ∀ (l : List Nat) (a : Int),
    l.foldl (fun p j => wrap32 (p + f j)) (wrap32 a) = wrap32 (a + (l.map f).sum)
  | [], a => by simp
  | j :: l, a => by
    simp only [List.foldl_cons, List.map_cons, List.sum_cons]
    rw [wrap32_add, inner_fold f l (a + f j), add_assoc]

theorem outer_fold (g : Nat → List Nat) (f : Nat → Nat → Int) : ∀ (l : List Nat) (a : Int),
    l.foldl (fun p i => (g i).foldl (fun p j => wrap32 (p + f i j)) p) (wrap32 a) =
      wrap32 (a + (l.map (fun i => ((g i).map (f i)).sum)).sum)
  | [], a => by simp
  | i :: l, a => by
    simp only [List.foldl_cons, List.map_cons, List.sum_cons]
    rw [inner_fold (f i) (g i) a, outer_fold g f l, add_assoc]

/-- The value `ranking_penalty` returns is the mathematical penalty reduced to 32 bits. -/
theorem ranking_penalty_eq_wrap (n : Nat) (w : Weight) (r : Ranking) :
    ranking_penalty n w r = wrap32 (penalty n w r) := by
  have := outer_fold (fun i => List.range' (i + 1) (n - (i + 1)))
    (fun i j => w (rd r i) (rd r j)) (List.range n) 0
  simpa [ranking_penalty, penalty, wrap32] using this

theorem rd_mem_range (n : Nat) (p : List Int) (hp : IsRanking n p) (i : Nat) (hi : i < n) :
    0 ≤ rd p i ∧ rd p i < n := by
  have hlen := hp.length
  rw [rd_of_lt p i (by omega)]
  have hmem : p[i] ∈ initialize_ranking n := hp.subset (List.getElem_mem _)
  simp only [initialize_ranking, List.mem_map, List.mem_range] at hmem
  obtain ⟨k, hk, e⟩ := hmem
  rw [← e]
  exact ⟨by positivity, by exact_mod_cast hk⟩

theorem penalty_nonneg (n : Nat) (w : Weight) (p : List Int) (hp : IsRanking n p)
    (hw : ∀ a b : Int, 0 ≤ a → a < n → 0 ≤ b → b < n → 0 ≤ w a b) : 0 ≤ penalty n w p := by
  unfold penalty
  apply List.sum_nonneg
  intro x hx
  simp only [List.mem_map, List.mem_range] at hx
  obtain ⟨i, hi, rfl⟩ := hx
  apply List.sum_nonneg
  intro y hy
  simp only [List.mem_map, List.mem_range'_1] at hy
  obtain ⟨j, hj, rfl⟩ := hy
  have h1 := rd_mem_range n p hp i hi
  have h2 := rd_mem_range n p hp j (by omega)
  exact hw _ _ h1.1 h1.2 h2.1 h2.2

/-- The result of the search: the first ranking, in lexicographic order, among those
of least `ranking_penalty`. -/
theorem find_kemeny_ranking_spec (n : Nat) (w : Weight) :
    ∃ r, (∀ fuel, n ! ≤ fuel → find_kemeny_ranking n w fuel = some r) ∧ IsRanking n r ∧
      (∀ p, IsRanking n p → ranking_penalty n w r ≤ ranking_penalty n w p) ∧
      (∀ p, IsRanking n p → ranking_penalty n w p = ranking_penalty n w r → LexLe r p) := by
  obtain ⟨L, hfuel, _, hhead, hsorted, hmem, _⟩ := enumeration n
  have hpw : (initialize_ranking n :: L).Pairwise LexLe := by
    cases L with
    | nil => simp at hhead
    | cons u L =>
      simp only [List.head?_cons, Option.some.injEq] at hhead
      subst hhead
      refine List.pairwise_cons.2 ⟨fun r hr => ?_, hsorted.imp (fun h => Or.inr h)⟩
      rcases List.mem_cons.1 hr with rfl | hr
      · exact Or.inl rfl
      · exact Or.inr ((List.pairwise_cons.1 hsorted).1 r hr)
  have hinit : initialize_ranking n ∈ L := (hmem _).2 (List.Perm.refl _)
  obtain ⟨e1, e2, e3, e4⟩ := scan_best_spec n w L _ (initialize_ranking n) rfl hpw
  refine ⟨(scan_best n w L (ranking_penalty n w (initialize_ranking n),
    initialize_ranking n)).2, fun fuel hf => ?_, ?_, ?_, ?_⟩
  · exact find_loop_eq n w fuel _ L _ _ (hfuel fuel hf)
  · rcases List.mem_cons.1 e2 with e | e
    · rw [e]; exact List.Perm.refl _
    · exact (hmem _).1 e
  · intro p hp
    rw [← e1]
    exact e3 p (List.mem_cons_of_mem _ ((hmem p).2 hp))
  · intro p hp hpen
    exact e4 p (List.mem_cons_of_mem _ ((hmem p).2 hp)) (by rw [hpen, e1])

/-- C9 (permutation completeness).  For `1 ≤ n ≤ 100` the loop of
`print_all_ranking_permutations` ends, and the list of rankings it visits has length
`n!`, contains every permutation of `0..n-1` exactly once and nothing else, is strictly
increasing in lexicographic order, begins with `[0,…,n-1]` and ends with `[n-1,…,0]`. -/
theorem C9_permutation_completeness (n : Nat) (_ : 1 ≤ n) (_ : n ≤ 100) :
    ∃ L : List Ranking,
      (∀ fuel, n ! ≤ fuel → print_all_ranking_permutations n fuel = some L) ∧
      L.length = n ! ∧
      L.Nodup ∧ (∀ p, p ∈ L ↔ IsRanking n p) ∧
      L.Pairwise LexLt ∧
      L.head? = some (candidates n) ∧
      L.getLast? = some (candidates n).reverse := by
  obtain ⟨L, hfuel, hlen, hhead, hsorted, hmem, hlast⟩ := enumeration n
  have hnodup : L.Nodup := by
    refine hsorted.imp ?_
    intro a b h e
    rw [e] at h
    exact lexLt_irrefl b h
  exact ⟨L, hfuel, hlen, hnodup, hmem, hsorted, hhead, hlast⟩

theorem C9_permutation_completeness_witness :
    ∃ L : List Ranking,
      (∀ fuel, 3 ! ≤ fuel → print_all_ranking_permutations 3 fuel = some L) ∧
      L.length = 3 ! ∧
      L.Nodup ∧ (∀ p, p ∈ L ↔ IsRanking 3 p) ∧
      L.Pairwise LexLt ∧
      L.head? = some (candidates 3) ∧
      L.getLast? = some (candidates 3).reverse :=
  C9_permutation_completeness 3 (by decide) (by decide)

/-- C10 (immediate successor).  For `1 ≤ n ≤ 100` and a permutation `p` of `0..n-1`
that is not strictly decreasing, `next_ranking_permutation` returns 1 and leaves a
permutation `q` of `0..n-1` with `p < q` lexicographically and no permutation of
`0..n-1` strictly between `p` and `q`. -/
theorem C10_immediate_successor (n : Nat) (p : Ranking) (_ : 1 ≤ n) (_ : n ≤ 100)
    (hp : IsRanking n p) (hnd : ¬ p.Pairwise (fun u v => v < u)) :
    ∃ q, next_ranking_permutation n p = (true, q) ∧ IsRanking n q ∧ LexLt p q ∧
      ∀ r, IsRanking n r → ¬ (LexLt p r ∧ LexLt r q) := by
  rcases next_on_ranking n p hp with ⟨_, hdesc⟩ | ⟨q, hnext, hq, hpq, himm⟩
  · exact absurd hdesc hnd
  · exact ⟨q, hnext, hq, hpq, fun r hr h => himm r hr h.1 h.2⟩

theorem C10_immediate_successor_witness :
    ∃ q, next_ranking_permutation 4 [1, 3, 2, 0] = (true, q) ∧ IsRanking 4 q ∧
      LexLt [1, 3, 2, 0] q ∧ ∀ r, IsRanking 4 r → ¬ (LexLt [1, 3, 2, 0] r ∧ LexLt r q) :=
  C10_immediate_successor 4 [1, 3, 2, 0] (by decide) (by decide) (by decide) (by decide)

theorem clear_zero_weight (n : Int) : clear_weight n zero_weight = zero_weight := by
  funext a b
  simp [clear_weight, zero_weight]

theorem read_edge_valid (n : Int) (w : Weight) (a b c : Int) (h : valid_edge n (a, b, c)) :
    read_edge n w a b c = Except.ok (store w a b c) := by
  obtain ⟨h1, h2, h3, h4, h5⟩ := h
  simp only at h1 h2 h3 h4 h5
  simp only [read_edge]
  rw [if_neg (by omega), if_neg (by omega), if_neg (by omega)]

theorem read_edge_invalid (n : Int) (w : Weight) (a b c : Int) (h : ¬ valid_edge n (a, b, c)) :
    ∃ v, read_edge n w a b c = Except.error (Fatal.index_out_of_bounds v) ∨
      read_edge n w a b c = Except.error (Fatal.negative_edge_weight v) := by
  simp only [read_edge]
  by_cases h1 : a ≥ n ∨ a < 0
  · exact ⟨a, Or.inl (by rw [if_pos h1])⟩
  · by_cases h2 : b ≥ n ∨ b < 0
    · exact ⟨b, Or.inl (by rw [if_neg h1, if_pos h2])⟩
    · by_cases h3 : c < 0
      · exact ⟨c, Or.inr (by rw [if_neg h1, if_neg h2, if_pos h3])⟩
      · refine absurd ?_ h
        simp only [valid_edge]
        omega

theorem read_edges_cons_ok (n : Int) (a b c : Int) (rest : List Int) (b1 c1 : Int)
    (w w1 : Weight) (h : read_edge n w a b c = Except.ok w1) :
    read_edges n (a :: b :: c :: rest) b1 c1 w = read_edges n rest b c w1 := by
  rw [read_edges, h]

theorem read_edges_cons_error (n : Int) (a b c : Int) (rest : List Int) (b1 c1 : Int)
    (w : Weight) (f : Fatal) (h : read_edge n w a b c = Except.error f) :
    read_edges n (a :: b :: c :: rest) b1 c1 w = Except.error f := by
  rw [read_edges, h]

/-- A list of valid triples is read to the end, each triple stored in turn. -/
theorem read_edges_valid (n : Int) : ∀ (es : List (Int × Int × Int)) (b c : Int) (w : Weight),
    (∀ e ∈ es, valid_edge n e) → read_edges n (encode es) b c w = Except.ok (store_edges w es)
  | [], b, c, w, _ => by simp [encode, read_edges, store_edges]
  | (a0, b0, c0) :: es, b, c, w, h => by
    simp only [encode, store_edges]
    rw [read_edges_cons_ok n a0 b0 c0 _ b c w _
      (read_edge_valid n w a0 b0 c0 (h _ (List.mem_cons_self _ _)))]
    exact read_edges_valid n es b0 c0 _ (fun e he => h e (List.mem_cons_of_mem _ he))

/-- A list of triples with an invalid one ends in `fatal` inside the reading loop. -/
theorem read_edges_invalid (n : Int) (tail : List Int) :
    ∀ (es : List (Int × Int × Int)) (b c : Int) (w : Weight),
    (∃ e ∈ es, ¬ valid_edge n e) →
    ∃ v, read_edges n (encode es ++ tail) b c w = Except.error (Fatal.index_out_of_bounds v) ∨
      read_edges n (encode es ++ tail) b c w = Except.error (Fatal.negative_edge_weight v)
  | [], _, _, _, h => by simp at h
  | (a0, b0, c0) :: es, b, c, w, h => by
    simp only [encode, List.cons_append]
    by_cases hv : valid_edge n (a0, b0, c0)
    · rw [read_edges_cons_ok n a0 b0 c0 _ b c w _ (read_edge_valid n w a0 b0 c0 hv)]
      obtain ⟨e, he, hne⟩ := h
      rcases List.mem_cons.1 he with rfl | he
      · exact absurd hv hne
      · exact read_edges_invalid n tail es b0 c0 _ ⟨e, he, hne⟩
    · obtain ⟨v, hv2 | hv2⟩ := read_edge_invalid n w a0 b0 c0 hv
      · exact ⟨v, Or.inl (read_edges_cons_error n a0 b0 c0 _ b c w _ hv2)⟩
      · exact ⟨v, Or.inr (read_edges_cons_error n a0 b0 c0 _ b c w _ hv2)⟩

theorem read_input_of_edges_error (b0 c0 n : Int) (toks : List Int) (f : Fatal)
    (h : read_edges n toks (if 0 < n then n else b0) c0 zero_weight = Except.error f) :
    read_input b0 c0 (n :: toks) = Except.error f := by
  simp only [read_input, clear_zero_weight, List.headD_cons, List.tail_cons, h]

theorem read_input_of_conflict (b0 c0 n : Int) (toks : List Int) (w : Weight) (ab : Int × Int)
    (h : read_edges n toks (if 0 < n then n else b0) c0 zero_weight = Except.ok w)
    (hc : find_conflict n w = some ab) :
    read_input b0 c0 (n :: toks) = Except.error (Fatal.connected_bidirectionally ab.1 ab.2) := by
  simp only [read_input, clear_zero_weight, List.headD_cons, List.tail_cons, h, hc]

theorem read_input_of_no_conflict (b0 c0 n : Int) (toks : List Int) (w : Weight)
    (h : read_edges n toks (if 0 < n then n else b0) c0 zero_weight = Except.ok w)
    (hc : find_conflict n w = none) :
    read_input b0 c0 (n :: toks) = Except.ok (n, w) := by
  simp only [read_input, clear_zero_weight, List.headD_cons, List.tail_cons, h, hc]

theorem main_of_error (b0 c0 : Int) (input : List Int) (fuel : Nat) (f : Fatal)
    (h : read_input b0 c0 input = Except.error f) : main b0 c0 input fuel = Except.error f := by
  simp [main, h]

/-- C6 (invalid edges are fatal).  For every `n` the arrays can hold (`n ≤ 100`, zero
and negative values included) and every input of `int` values whose edge list contains
a complete triple `(a, b, c)` with `a` outside `[0, n)`, `b` outside `[0, n)` or
`c < 0` (whatever follows the triples), `read_input` ends in `fatal` with the
out-of-bounds or the negative-weight diagnostic, and `main` ends with it: the search
is not run and no ranking or score is produced. -/
theorem C6_invalid_edges_fatal (n b0 c0 : Int) (es : List (Int × Int × Int))
    (tail : List Int) (fuel : Nat) (_ : n ≤ 100)
    (_ : int_input (n :: (encode es ++ tail)))
    (h : ∃ e ∈ es, e.1 < 0 ∨ n ≤ e.1 ∨ e.2.1 < 0 ∨ n ≤ e.2.1 ∨ e.2.2 < 0) :
    ∃ f, (∃ v, f = Fatal.index_out_of_bounds v ∨ f = Fatal.negative_edge_weight v) ∧
      read_input b0 c0 (n :: (encode es ++ tail)) = Except.error f ∧
      main b0 c0 (n :: (encode es ++ tail)) fuel = Except.error f := by
  have h2 : ∃ e ∈ es, ¬ valid_edge n e := by
    obtain ⟨e, he, hbad⟩ := h
    refine ⟨e, he, fun hv => ?_⟩
    simp only [valid_edge] at hv
    omega
  obtain ⟨v, hv | hv⟩ :=
    read_edges_invalid n tail es (if 0 < n then n else b0) c0 zero_weight h2
  · have e : read_input b0 c0 (n :: (encode es ++ tail)) =
        Except.error (Fatal.index_out_of_bounds v) :=
      read_input_of_edges_error b0 c0 n _ _ hv
    exact ⟨_, ⟨v, Or.inl rfl⟩, e, main_of_error _ _ _ _ _ e⟩
  · have e : read_input b0 c0 (n :: (encode es ++ tail)) =
        Except.error (Fatal.negative_edge_weight v) :=
      read_input_of_edges_error b0 c0 n _ _ hv
    exact ⟨_, ⟨v, Or.inr rfl⟩, e, main_of_error _ _ _ _ _ e⟩

theorem C6_invalid_edges_fatal_witness :
    ∃ f, (∃ v, f = Fatal.index_out_of_bounds v ∨ f = Fatal.negative_edge_weight v) ∧
      read_input 0 0 (3 :: (encode [(0, 1, 5), (3, 1, 2), (1, 2, 4)] ++ [7])) =
        Except.error f ∧
      main 0 0 (3 :: (encode [(0, 1, 5), (3, 1, 2), (1, 2, 4)] ++ [7])) 6 = Except.error f :=
  C6_invalid_edges_fatal 3 0 0 [(0, 1, 5), (3, 1, 2), (1, 2, 4)] [7] 6 (by decide)
    (by decide) ⟨(3, 1, 2), by decide, by decide⟩

theorem find_conflict_none (n : Int) (w : Weight) (h : find_conflict n w = none)
    (a b : Int) (ha0 : 0 ≤ a) (ha : a < n) (hb0 : 0 ≤ b) (hb : b < n) :
    ¬ (w a b > 0 ∧ w b a > 0) := by
  simp only [find_conflict, List.find?_eq_none, List.mem_flatMap, List.mem_map,
    List.mem_range, decide_eq_true_eq] at h
  refine h (a, b) ⟨a.toNat, by omega, b.toNat, by omega, ?_⟩
  rw [Int.toNat_of_nonneg ha0, Int.toNat_of_nonneg hb0]

theorem find_conflict_some (n : Int) (w : Weight)
    (a b : Int) (ha0 : 0 ≤ a) (ha : a < n) (hb0 : 0 ≤ b) (hb : b < n)
    (hab : w a b > 0) (hba : w b a > 0) : ∃ ab, find_conflict n w = some ab := by
  cases h : find_conflict n w with
  | none => exact absurd ⟨hab, hba⟩ (find_conflict_none n w h a b ha0 ha hb0 hb)
  | some ab => exact ⟨ab, rfl⟩

theorem store_nonneg (w : Weight) (a b c : Int) (hc : 0 ≤ c) (hw : ∀ x y, 0 ≤ w x y) :
    ∀ x y, 0 ≤ store w a b c x y := by
  intro x y
  simp only [store]
  split
  · exact hc
  · exact hw x y

theorem read_edge_nonneg (n : Int) (w w1 : Weight) (a b c : Int)
    (h : read_edge n w a b c = Except.ok w1) (hw : ∀ x y, 0 ≤ w x y) : ∀ x y, 0 ≤ w1 x y := by
  simp only [read_edge] at h
  split at h
  · simp at h
  · split at h
    · simp at h
    · split at h
      · simp at h
      · simp only [Except.ok.injEq] at h
        subst h
        exact store_nonneg w a b c (by omega) hw

/-- The reading loop keeps the matrix non-negative, whatever the input. -/
theorem read_edges_nonneg (n : Int) : ∀ (k : Nat) (toks : List Int), toks.length ≤ k →
    ∀ (b c : Int) (w w1 : Weight),
    read_edges n toks b c w = Except.ok w1 → (∀ x y, 0 ≤ w x y) → ∀ x y, 0 ≤ w1 x y
  | _, [], _, b, c, w, w1, h, hw => by
    simp only [read_edges, Except.ok.injEq] at h
    subst h
    exact hw
  | _, [a], _, b, c, w, w1, h, hw => by
    simp only [read_edges] at h
    exact read_edge_nonneg n w w1 a b c h hw
  | _, [a, b], _, _, c, w, w1, h, hw => by
    simp only [read_edges] at h
    exact read_edge_nonneg n w w1 a b c h hw
  | 0, _ :: _ :: _ :: _, hk, _, _, _, _, _, _ => by simp at hk
  | k + 1, a :: b :: c :: rest, hk, _, _, w, w1, h, hw => by
    cases h2 : read_edge n w a b c with
    | error f =>
      rw [read_edges_cons_error n a b c rest _ _ w f h2] at h
      simp at h
    | ok w2 =>
      rw [read_edges_cons_ok n a b c rest _ _ w w2 h2] at h
      exact read_edges_nonneg n k rest (by simp at hk; omega) b c w2 w1 h
        (read_edge_nonneg n w w2 a b c h2 hw)

theorem read_input_ok (b0 c0 : Int) (input : List Int) (n : Int) (w : Weight)
    (h : read_input b0 c0 input = Except.ok (n, w)) :
    n = input.headD 0 ∧
    read_edges n input.tail (if 0 < n then n else b0) c0 zero_weight = Except.ok w ∧
    find_conflict n w = none := by
  simp only [read_input, clear_zero_weight] at h
  split at h
  · simp at h
  · rename_i w1 h1
    split at h
    · simp at h
    · rename_i h2
      simp only [Except.ok.injEq, Prod.mk.injEq] at h
      obtain ⟨rfl, rfl⟩ := h
      exact ⟨rfl, h1, h2⟩

/-- The matrix left by an accepted input. -/
theorem read_input_invariant (b0 c0 : Int) (input : List Int) (n : Int) (w : Weight)
    (h : read_input b0 c0 input = Except.ok (n, w)) :
    (∀ a b, 0 ≤ w a b) ∧
    ∀ a b, 0 ≤ a → a < n → 0 ≤ b → b < n → w a b = 0 ∨ w b a = 0 := by
  obtain ⟨_, h1, h2⟩ := read_input_ok b0 c0 input n w h
  have hnn : ∀ a b, 0 ≤ w a b :=
    read_edges_nonneg n _ _ (le_refl _) _ _ _ w h1 (fun _ _ => le_refl _)
  refine ⟨hnn, fun a b ha0 ha hb0 hb => ?_⟩
  have := find_conflict_none n w h2 a b ha0 ha hb0 hb
  have := hnn a b
  have := hnn b a
  omega

/-- C8 (weight-matrix invariant).  Whenever `read_input` returns without a fatal error
(`n ≤ 100`), for all `a, b` in `[0, n)`: `weight[a][b] ≥ 0`, `weight[a][a] = 0`, and for
`a ≠ b` at most one of `weight[a][b]`, `weight[b][a]` is nonzero; and
`next_ranking_permutation`, `ranking_penalty` and `find_kemeny_ranking` leave the
matrix (and `number_of_candidates`) as they found them. -/
theorem C8_weight_invariant (b0 c0 : Int) (input : List Int) (n : Int) (w : Weight)
    (_ : n ≤ 100) (h : read_input b0 c0 input = Except.ok (n, w)) :
    (∀ a b, 0 ≤ a → a < n → 0 ≤ b → b < n →
      0 ≤ w a b ∧ w a a = 0 ∧ (a ≠ b → w a b = 0 ∨ w b a = 0)) ∧
    (∀ s : State, s.weight = w →
      (State.next_ranking_permutation s).2.weight = w ∧
      (State.ranking_penalty s).2.weight = w ∧
      ∀ fuel s1, State.find_kemeny_ranking s fuel = some s1 → s1.weight = w) := by
  obtain ⟨hnn, hbi⟩ := read_input_invariant b0 c0 input n w h
  refine ⟨fun a b ha0 ha hb0 hb => ⟨hnn a b, ?_, fun _ => hbi a b ha0 ha hb0 hb⟩, ?_⟩
  · have := hbi a a ha0 ha ha0 ha
    omega
  · intro s hs
    refine ⟨hs, hs, fun fuel s1 h1 => ?_⟩
    simp only [State.find_kemeny_ranking, Option.map_eq_some'] at h1
    obtain ⟨r, _, rfl⟩ := h1
    exact hs

theorem C8_weight_invariant_witness :
    (∀ a b, 0 ≤ a → a < (3 : Int) → 0 ≤ b → b < (3 : Int) →
      0 ≤ store_edges zero_weight [(0, 1, 5), (1, 2, 3), (0, 2, 0)] a b ∧
      store_edges zero_weight [(0, 1, 5), (1, 2, 3), (0, 2, 0)] a a = 0 ∧
      (a ≠ b → store_edges zero_weight [(0, 1, 5), (1, 2, 3), (0, 2, 0)] a b = 0 ∨
        store_edges zero_weight [(0, 1, 5), (1, 2, 3), (0, 2, 0)] b a = 0)) ∧
    (∀ s : State, s.weight = store_edges zero_weight [(0, 1, 5), (1, 2, 3), (0, 2, 0)] →
      (State.next_ranking_permutation s).2.weight =
        store_edges zero_weight [(0, 1, 5), (1, 2, 3), (0, 2, 0)] ∧
      (State.ranking_penalty s).2.weight =
        store_edges zero_weight [(0, 1, 5), (1, 2, 3), (0, 2, 0)] ∧
      ∀ fuel s1, State.find_kemeny_ranking s fuel = some s1 →
        s1.weight = store_edges zero_weight [(0, 1, 5), (1, 2, 3), (0, 2, 0)]) :=
  C8_weight_invariant 0 0 (3 :: encode [(0, 1, 5), (1, 2, 3), (0, 2, 0)]) 3
    (store_edges zero_weight [(0, 1, 5), (1, 2, 3), (0, 2, 0)]) (by decide)
    (read_input_of_no_conflict 0 0 3 _ _ (by rfl) (by rfl))

/-- The matrix after an edge list: each cell holds the margin of the last triple that
names it, or what it held before. -/
theorem store_edges_apply : ∀ (es : List (Int × Int × Int)) (w : Weight) (x y : Int),
    store_edges w es x y = (last_margin es y x).getD (w x y)
  | [], w, x, y => by simp [store_edges, last_margin]
  | (a0, b0, c0) :: es, w, x, y => by
    simp only [store_edges, last_margin]
    rw [store_edges_apply es]
    cases h : last_margin es y x with
    | some c => simp
    | none =>
      simp only [Option.getD_none, store]
      by_cases h1 : x = b0 ∧ y = a0
      · rw [if_pos h1, if_pos ⟨h1.2.symm, h1.1.symm⟩]
        rfl
      · rw [if_neg h1, if_neg (fun h2 => h1 ⟨h2.2.symm, h2.1.symm⟩)]
        rfl

theorem last_margin_mem : ∀ (es : List (Int × Int × Int)) (a b c : Int),
    last_margin es a b = some c → (a, b, c) ∈ es
  | [], _, _, _, h => by simp [last_margin] at h
  | (a0, b0, c0) :: es, a, b, c, h => by
    simp only [last_margin] at h
    cases h1 : last_margin es a b with
    | some c1 =>
      rw [h1] at h
      simp only [Option.some.injEq] at h
      subst h
      exact List.mem_cons_of_mem _ (last_margin_mem es a b c1 h1)
    | none =>
      rw [h1] at h
      simp only at h
      split at h
      · rename_i h2
        simp only [Option.some.injEq] at h
        obtain ⟨rfl, rfl⟩ := h2
        subst h
        exact List.mem_cons_self _ _
      · simp at h

/-- C7 fails as stated: the edge list `(0,1,3), (1,0,2), (0,1,0)` for `n = 2` is
otherwise valid and contains `(0,1,3)` and `(1,0,2)`, yet `read_input` accepts it: the
later triple `(0,1,0)` resets `weight[1][0]` before the matrix is checked. -/
theorem C7_counterexample :
    (∀ e ∈ [((0 : Int), (1 : Int), (3 : Int)), (1, 0, 2), (0, 1, 0)], valid_edge 2 e) ∧
    ((0 : Int), (1 : Int), (3 : Int)) ∈ [((0 : Int), (1 : Int), (3 : Int)), (1, 0, 2), (0, 1, 0)] ∧
    ((1 : Int), (0 : Int), (2 : Int)) ∈ [((0 : Int), (1 : Int), (3 : Int)), (1, 0, 2), (0, 1, 0)] ∧
    (read_input 0 0 (2 :: encode [(0, 1, 3), (1, 0, 2), (0, 1, 0)])).isOk = true := by
  refine ⟨by decide, by decide, by decide, by rfl⟩

/-- C7, amended.  For every `n ≤ 100` and every edge list of valid triples of `int`
values in which the last triple naming `(a, b)` has a margin `c > 0` and the last triple
naming `(b, a)` has a margin `d > 0`, with `a ≠ b`, `read_input` ends in `fatal` with
the bidirectional diagnostic, and so does `main`, whatever other triples come before,
between or after. -/
theorem C7_bidirectional_fatal (n b0 c0 : Int) (es : List (Int × Int × Int)) (fuel : Nat)
    (a b c d : Int) (_ : n ≤ 100) (_ : int_input (n :: encode es))
    (hvalid : ∀ e ∈ es, valid_edge n e) (_ : a ≠ b)
    (hab : last_margin es a b = some c) (hc : 0 < c)
    (hba : last_margin es b a = some d) (hd : 0 < d) :
    ∃ x y, read_input b0 c0 (n :: encode es) =
        Except.error (Fatal.connected_bidirectionally x y) ∧
      main b0 c0 (n :: encode es) fuel = Except.error (Fatal.connected_bidirectionally x y) := by
  have hread := read_edges_valid n es (if 0 < n then n else b0) c0 zero_weight hvalid
  have hv := hvalid _ (last_margin_mem es a b c hab)
  simp only [valid_edge] at hv
  have h1 : store_edges zero_weight es b a = c := by rw [store_edges_apply, hab]; rfl
  have h2 : store_edges zero_weight es a b = d := by rw [store_edges_apply, hba]; rfl
  obtain ⟨ab, hfc⟩ := find_conflict_some n (store_edges zero_weight es) a b hv.1 hv.2.1
    hv.2.2.1 hv.2.2.2.1 (by rw [h2]; exact hd) (by rw [h1]; exact hc)
  have e := read_input_of_conflict b0 c0 n (encode es) _ ab hread hfc
  exact ⟨ab.1, ab.2, e, main_of_error _ _ _ _ _ e⟩

theorem C7_bidirectional_fatal_witness :
    ∃ x y, read_input 0 0 (3 :: encode [(0, 1, 3), (1, 2, 4), (1, 0, 2), (0, 1, 7)]) =
        Except.error (Fatal.connected_bidirectionally x y) ∧
      main 0 0 (3 :: encode [(0, 1, 3), (1, 2, 4), (1, 0, 2), (0, 1, 7)]) 6 =
        Except.error (Fatal.connected_bidirectionally x y) :=
  C7_bidirectional_fatal 3 0 0 [(0, 1, 3), (1, 2, 4), (1, 0, 2), (0, 1, 7)] 6 0 1 7 2
    (by decide) (by decide) (by decide) (by decide) (by decide) (by decide) (by decide)
    (by decide)

/-- What an accepted edge list tells: every triple is valid, the matrix is the one the
triples store, and the final check finds no conflict. -/
theorem accepted_edges (b0 c0 n m : Int) (es : List (Int × Int × Int)) (w : Weight)
    (h : read_input b0 c0 (n :: encode es) = Except.ok (m, w)) :
    m = n ∧ (∀ e ∈ es, valid_edge n e) ∧ w = store_edges zero_weight es ∧
      find_conflict n w = none := by
  obtain ⟨hm, h1, h2⟩ := read_input_ok b0 c0 _ m w h
  simp only [List.headD_cons, List.tail_cons] at hm h1
  subst hm
  have hv : ∀ e ∈ es, valid_edge m e := by
    by_contra hne
    push_neg at hne
    obtain ⟨v, hv | hv⟩ := read_edges_invalid m [] es (if 0 < m then m else b0) c0 zero_weight hne
    · rw [List.append_nil, h1] at hv; simp at hv
    · rw [List.append_nil, h1] at hv; simp at hv
  have := read_edges_valid m es (if 0 < m then m else b0) c0 zero_weight hv
  rw [h1] at this
  simp only [Except.ok.injEq] at this
  exact ⟨rfl, hv, this, h2⟩

theorem last_margin_none_of_not_mem : ∀ (es : List (Int × Int × Int)) (a b : Int),
    (a, b) ∉ es.map (fun e => (e.1, e.2.1)) → last_margin es a b = none
  | [], _, _, _ => rfl
  | (a0, b0, c0) :: es, a, b, h => by
    simp only [List.map_cons, List.mem_cons, not_or] at h
    simp only [last_margin]
    rw [last_margin_none_of_not_mem es a b h.2]
    simp only
    rw [if_neg]
    rintro ⟨rfl, rfl⟩
    exact h.1 rfl

/-- With no ordered pair named twice, a cell of the matrix is the sum of the margins
of the triples naming it. -/
theorem sum_matching : ∀ (es : List (Int × Int × Int)) (a b : Int),
    (es.map (fun e => (e.1, e.2.1))).Nodup →
    (es.map (fun e => if e.1 = a ∧ e.2.1 = b then e.2.2 else 0)).sum =
      (last_margin es a b).getD 0
  | [], _, _, _ => rfl
  | (a0, b0, c0) :: es, a, b, h => by
    simp only [List.map_cons, List.nodup_cons] at h
    simp only [List.map_cons, List.sum_cons, last_margin]
    rw [sum_matching es a b h.2]
    by_cases h1 : a0 = a ∧ b0 = b
    · obtain ⟨rfl, rfl⟩ := h1
      rw [last_margin_none_of_not_mem es a0 b0 h.1]
      simp
    · rw [if_neg h1]
      cases last_margin es a b <;> simp [h1]

theorem penalty_zero (n : Nat) (p : Ranking) : penalty n (fun _ _ => 0) p = 0 := by
  simp [penalty]

theorem penalty_add (n : Nat) (f g : Weight) (p : Ranking) :
    penalty n (fun x y => f x y + g x y) p = penalty n f p + penalty n g p := by
  simp only [penalty]
  rw [← List.sum_map_add]
  congr 1
  apply List.map_congr_left
  intro i _
  rw [← List.sum_map_add]

theorem penalty_sum (n : Nat) (p : Ranking) (g : Int × Int × Int → Weight) :
    ∀ es : List (Int × Int × Int),
    penalty n (fun x y => (es.map (fun e => g e x y)).sum) p =
      (es.map (fun e => penalty n (g e) p)).sum
  | [] => by simp [penalty_zero]
  | e :: es => by
    simp only [List.map_cons, List.sum_cons]
    rw [penalty_add n (g e) (fun x y => (es.map (fun e => g e x y)).sum) p, penalty_sum n p g es]

theorem sum_indicator (k : Nat) (c : Int) (P : Prop) [Decidable P] : ∀ (l : List Nat),
    l.Nodup → (l.map (fun j => if P ∧ j = k then c else 0)).sum = if P ∧ k ∈ l then c else 0
  | [], _ => by simp
  | j :: l, h => by
    simp only [List.nodup_cons] at h
    simp only [List.map_cons, List.sum_cons, List.mem_cons]
    rw [sum_indicator k c P l h.2]
    by_cases hP : P
    · by_cases hj : j = k
      · subst hj
        simp [hP, h.1]
      · have hj2 : ¬ k = j := fun e => hj e.symm
        simp [hP, hj, hj2]
    · simp [hP]

theorem mem_of_isRanking (n : Nat) (p : List Int) (hp : IsRanking n p) (a : Int)
    (h0 : 0 ≤ a) (hn : a < n) : a ∈ p := by
  apply hp.symm.subset
  simp only [candidates, List.mem_map, List.mem_range]
  exact ⟨a.toNat, by omega, by omega⟩

theorem rd_eq_iff (n : Nat) (p : List Int) (hp : IsRanking n p) (a : Int)
    (h0 : 0 ≤ a) (hn : a < n) (i : Nat) (hi : i < n) : a = rd p i ↔ i = p.indexOf a := by
  have hlen := hp.length
  have hmem := mem_of_isRanking n p hp a h0 hn
  have hidx : p.indexOf a < p.length := List.indexOf_lt_length.2 hmem
  rw [rd_of_lt p i (by omega)]
  constructor
  · intro e
    rw [e, List.indexOf_getElem hp.nodup]
  · intro e
    subst e
    exact (List.getElem_indexOf hidx).symm

/-- The penalty a single triple `(a, b, c)` contributes: `c` when `b` is placed
before `a`. -/
theorem penalty_single (n : Nat) (p : List Int) (hp : IsRanking n p) (a b c : Int)
    (ha0 : 0 ≤ a) (ha : a < n) (hb0 : 0 ≤ b) (hb : b < n) :
    penalty n (fun x y => if a = y ∧ b = x then c else 0) p =
      if p.indexOf b < p.indexOf a then c else 0 := by
  have hlen := hp.length
  have hia : p.indexOf a < n := by
    rw [← hlen]; exact List.indexOf_lt_length.2 (mem_of_isRanking n p hp a ha0 ha)
  have hib : p.indexOf b < n := by
    rw [← hlen]; exact List.indexOf_lt_length.2 (mem_of_isRanking n p hp b hb0 hb)
  simp only [penalty]
  have inner : ∀ i ∈ List.range n,
      ((List.range' (i + 1) (n - (i + 1))).map
        (fun j => if a = rd p j ∧ b = rd p i then c else 0)).sum =
      if p.indexOf b < p.indexOf a ∧ i = p.indexOf b then c else 0 := by
    intro i hi
    rw [List.mem_range] at hi
    have e1 : (List.range' (i + 1) (n - (i + 1))).map
        (fun j => if a = rd p j ∧ b = rd p i then c else 0) =
        (List.range' (i + 1) (n - (i + 1))).map
        (fun j => if i = p.indexOf b ∧ j = p.indexOf a then c else 0) := by
      apply List.map_congr_left
      intro j hj
      rw [List.mem_range'_1] at hj
      have q1 := rd_eq_iff n p hp a ha0 ha j (by omega)
      have q2 := rd_eq_iff n p hp b hb0 hb i hi
      simp only [q1, q2]
      by_cases h1 : i = p.indexOf b <;> by_cases h2 : j = p.indexOf a <;> simp [h1, h2]
    rw [e1, sum_indicator _ _ _ _ (List.nodup_range' _ _)]
    simp only [List.mem_range'_1]
    by_cases h1 : i = p.indexOf b
    · by_cases h2 : p.indexOf b < p.indexOf a
      · rw [if_pos ⟨h1, by omega, by omega⟩, if_pos ⟨h2, h1⟩]
      · rw [if_neg (by omega), if_neg (by tauto)]
    · rw [if_neg (by tauto), if_neg (by tauto)]
  rw [List.map_congr_left inner, sum_indicator _ _ _ _ (List.nodup_range n)]
  simp only [List.mem_range]
  by_cases h2 : p.indexOf b < p.indexOf a
  · rw [if_pos ⟨h2, hib⟩, if_pos h2]
  · rw [if_neg (by tauto), if_neg h2]

theorem disagreement_eq (p : Ranking) : ∀ es : List (Int × Int × Int),
    disagreement es p =
      (es.map (fun e => if p.indexOf e.2.1 < p.indexOf e.1 then e.2.2 else 0)).sum
  | [] => rfl
  | e :: es => by
    have ih := disagreement_eq p es
    simp only [disagreement] at ih ⊢
    by_cases h : p.indexOf e.2.1 < p.indexOf e.1
    · simp [List.filter_cons, h, ih]
    · simp [List.filter_cons, h, ih]

/-- The mathematical penalty on the matrix of an accepted edge list with no repeated
ordered pair is the disagreement of the ranking with the edge list. -/
theorem penalty_eq_disagreement (n : Nat) (p : List Int) (hp : IsRanking n p)
    (es : List (Int × Int × Int)) (hv : ∀ e ∈ es, valid_edge n e)
    (hnd : (es.map (fun e => (e.1, e.2.1))).Nodup) :
    penalty n (store_edges zero_weight es) p = disagreement es p := by
  have hw : store_edges zero_weight es =
      fun x y => (es.map (fun e => (fun (e : Int × Int × Int) (x y : Int) =>
        if e.1 = y ∧ e.2.1 = x then e.2.2 else 0) e x y)).sum := by
    funext x y
    rw [store_edges_apply, sum_matching es y x hnd]
    rfl
  rw [hw, penalty_sum n p _ es, disagreement_eq]
  congr 1
  apply List.map_congr_left
  intro e he
  obtain ⟨h1, h2, h3, h4, _⟩ := hv e he
  exact penalty_single n p hp e.1 e.2.1 e.2.2 h1 h2 h3 h4

/-- C3 fails as stated: for `n = 3` the accepted edge list `(1,0,2147483647), (2,0,1)`
names no ordered pair twice, and on the ranking `[0,1,2]` both triples disagree, so the
sum of their margins is `2147483648`; `ranking_penalty` adds them in a C `int` and
returns `-2147483648`. -/
theorem C3_counterexample :
    read_input 0 0 (3 :: encode [(1, 0, 2147483647), (2, 0, 1)]) =
      Except.ok (3, store_edges zero_weight [(1, 0, 2147483647), (2, 0, 1)]) ∧
    ([((1 : Int), (0 : Int), (2147483647 : Int)), (2, 0, 1)].map
      (fun e => (e.1, e.2.1))).Nodup ∧
    IsRanking 3 [0, 1, 2] ∧
    disagreement [(1, 0, 2147483647), (2, 0, 1)] [0, 1, 2] = 2147483648 ∧
    ranking_penalty 3 (store_edges zero_weight [(1, 0, 2147483647), (2, 0, 1)]) [0, 1, 2] =
      -2147483648 :=
  ⟨read_input_of_no_conflict 0 0 3 _ _ (by rfl) (by rfl), by decide, by decide, by decide,
    by decide⟩

/-- C3, amended.  For `1 ≤ n ≤ 100`, an edge list accepted by `read_input` in which no
ordered pair occurs in more than one triple, and a permutation `p` of `0..n-1` held in
`ranking`: pairs never mentioned leave their matrix cell 0, and `ranking_penalty`
returns the sum of `c` over the input triples `(a, b, c)` for which `b` is placed before
`a` in `p`, reduced to a 32-bit `int`; it is that sum itself whenever the sum does not
exceed `INT_MAX`. -/
theorem C3_penalty_counts_disagreement (n : Nat) (b0 c0 : Int)
    (es : List (Int × Int × Int)) (w : Weight) (p : Ranking) (_ : 1 ≤ n) (_ : n ≤ 100)
    (hacc : read_input b0 c0 ((n : Int) :: encode es) = Except.ok ((n : Int), w))
    (hnd : (es.map (fun e => (e.1, e.2.1))).Nodup) (hp : IsRanking n p) :
    (∀ a b, (a, b) ∉ es.map (fun e => (e.1, e.2.1)) → w b a = 0) ∧
    ranking_penalty n w p = wrap32 (disagreement es p) ∧
    (disagreement es p ≤ INT_MAX → ranking_penalty n w p = disagreement es p) := by
  obtain ⟨_, hv, hw, _⟩ := accepted_edges b0 c0 n n es w hacc
  obtain ⟨hnn, _⟩ := read_input_invariant b0 c0 _ n w hacc
  have hpen : penalty n w p = disagreement es p := by
    rw [hw]; exact penalty_eq_disagreement n p hp es hv hnd
  refine ⟨fun a b hab => ?_, ?_, fun hle => ?_⟩
  · rw [hw, store_edges_apply, last_margin_none_of_not_mem es a b hab]
    rfl
  · rw [ranking_penalty_eq_wrap, hpen]
  · rw [ranking_penalty_eq_wrap, hpen]
    apply wrap32_of_range _ _ hle
    rw [← hpen]
    exact penalty_nonneg n w p hp (fun a b _ _ _ _ => hnn a b)

theorem C3_penalty_counts_disagreement_witness :
    (∀ a b, (a, b) ∉ [((0 : Int), (1 : Int), (5 : Int)), (1, 2, 3), (0, 2, 0)].map
        (fun e => (e.1, e.2.1)) →
      store_edges zero_weight [(0, 1, 5), (1, 2, 3), (0, 2, 0)] b a = 0) ∧
    ranking_penalty 3 (store_edges zero_weight [(0, 1, 5), (1, 2, 3), (0, 2, 0)]) [2, 0, 1] =
      wrap32 (disagreement [(0, 1, 5), (1, 2, 3), (0, 2, 0)] [2, 0, 1]) ∧
    (disagreement [(0, 1, 5), (1, 2, 3), (0, 2, 0)] [2, 0, 1] ≤ INT_MAX →
      ranking_penalty 3 (store_edges zero_weight [(0, 1, 5), (1, 2, 3), (0, 2, 0)]) [2, 0, 1] =
        disagreement [(0, 1, 5), (1, 2, 3), (0, 2, 0)] [2, 0, 1]) :=
  C3_penalty_counts_disagreement 3 0 0 [(0, 1, 5), (1, 2, 3), (0, 2, 0)]
    (store_edges zero_weight [(0, 1, 5), (1, 2, 3), (0, 2, 0)]) [2, 0, 1] (by decide)
    (by decide) (read_input_of_no_conflict 0 0 3 _ _ (by rfl) (by rfl)) (by decide)
    (by decide)

theorem rd_initialize_ranking (n i : Nat) (hi : i < n) : rd (initialize_ranking n) i = i := by
  rw [rd_of_lt _ _ (by rw [initialize_ranking_length]; exact hi)]
  simp [initialize_ranking]

theorem penalty_initialize_zero (n : Nat) (w : Weight)
    (hw : ∀ i j : Nat, i < j → j < n → w i j = 0) : penalty n w (initialize_ranking n) = 0 := by
  unfold penalty
  apply List.sum_eq_zero
  intro x hx
  simp only [List.mem_map, List.mem_range] at hx
  obtain ⟨i, hi, rfl⟩ := hx
  apply List.sum_eq_zero
  intro y hy
  simp only [List.mem_map, List.mem_range'_1] at hy
  obtain ⟨j, hj, rfl⟩ := hy
  rw [rd_initialize_ranking n i hi, rd_initialize_ranking n j (by omega)]
  exact hw i j (by omega) (by omega)

theorem main_of_ok (b0 c0 : Int) (input : List Int) (fuel : Nat) (n : Nat) (w : Weight)
    (r : Ranking) (h : read_input b0 c0 input = Except.ok ((n : Int), w))
    (hr : find_kemeny_ranking n w fuel = some r) :
    main b0 c0 input fuel = Except.ok (some (r, ranking_penalty n w r)) := by
  simp [main, h, State.find_kemeny_ranking, State.ranking_penalty, hr]

/-- A search whose first ranking has the least `ranking_penalty` returns it. -/
theorem find_first_of_min (n : Nat) (w : Weight)
    (hmin0 : ∀ p, IsRanking n p →
      ranking_penalty n w (initialize_ranking n) ≤ ranking_penalty n w p) :
    ∀ fuel, n ! ≤ fuel → find_kemeny_ranking n w fuel = some (initialize_ranking n) := by
  obtain ⟨r, hfuel, hr, hmin, hlex⟩ := find_kemeny_ranking_spec n w
  have hinit : IsRanking n (initialize_ranking n) := List.Perm.refl _
  have h1 := hmin _ hinit
  have h2 := hmin0 r hr
  have hle := hlex _ hinit (by omega)
  have : r = initialize_ranking n := by
    rcases hle with e | hlt
    · exact e
    · rcases lexLe_initialize n r hr with e | hgt
      · exact e
      · exact absurd hlt (fun h => lexLt_asymm _ _ h hgt)
  rw [← this]
  exact hfuel

/-- The six rankings of three candidates. -/
theorem rankings_three (p : List Int) (hp : IsRanking 3 p) :
    p ∈ [[(0 : Int), 1, 2], [0, 2, 1], [1, 0, 2], [1, 2, 0], [2, 0, 1], [2, 1, 0]] := by
  obtain ⟨L, hfuel, _, _, _, hmem, _⟩ := enumeration 3
  have h6 := hfuel 6 (by decide)
  have e : visit_loop 3 6 (initialize_ranking 3) =
      some [[(0 : Int), 1, 2], [0, 2, 1], [1, 0, 2], [1, 2, 0], [2, 0, 1], [2, 1, 0]] := by
    decide
  rw [e] at h6
  simp only [Option.some.injEq] at h6
  rw [h6]
  exact (hmem p).2 hp

/-- C4 fails as stated: for `n = 3` the accepted edge list `(0,1,2147483647), (0,2,1)`
has `a < b` in every triple, yet the program prints the ranking `[1,2,0]` with score
`-2147483648`: the penalty of `[1,2,0]` overflows the C `int` it is added in. -/
theorem C4_counterexample :
    (∀ e ∈ [((0 : Int), (1 : Int), (2147483647 : Int)), (0, 2, 1)], 0 < e.2.2 → e.1 < e.2.1) ∧
    read_input 0 0 (3 :: encode [(0, 1, 2147483647), (0, 2, 1)]) =
      Except.ok (3, store_edges zero_weight [(0, 1, 2147483647), (0, 2, 1)]) ∧
    main 0 0 (3 :: encode [(0, 1, 2147483647), (0, 2, 1)]) 6 =
      Except.ok (some ([1, 2, 0], -2147483648)) :=
  ⟨by decide, read_input_of_no_conflict 0 0 3 _ _ (by rfl) (by rfl), by rfl⟩

/-- C4, amended.  For `1 ≤ n ≤ 100` and an accepted edge list in which every triple
`(a, b, c)` with `c > 0` has `a < b` (all weights zero included), provided no ranking
has a penalty above `INT_MAX`, `find_kemeny_ranking` leaves `ranking = [0,1,…,n-1]`, and
the score `main` prints is 0. -/
theorem C4_consistent_identity (n : Nat) (b0 c0 : Int) (es : List (Int × Int × Int))
    (w : Weight) (_ : 1 ≤ n) (_ : n ≤ 100)
    (hacc : read_input b0 c0 ((n : Int) :: encode es) = Except.ok ((n : Int), w))
    (hcons : ∀ e ∈ es, 0 < e.2.2 → e.1 < e.2.1)
    (hno : ∀ p, IsRanking n p → penalty n w p ≤ INT_MAX) :
    ∀ fuel, n ! ≤ fuel →
      find_kemeny_ranking n w fuel = some (candidates n) ∧
      ranking_penalty n w (candidates n) = 0 ∧
      main b0 c0 ((n : Int) :: encode es) fuel = Except.ok (some (candidates n, 0)) := by
  obtain ⟨_, hv, hw, _⟩ := accepted_edges b0 c0 n n es w hacc
  obtain ⟨hnn, _⟩ := read_input_invariant b0 c0 _ n w hacc
  have hzero : ∀ i j : Nat, i < j → j < n → w i j = 0 := by
    intro i j hij _
    rw [hw, store_edges_apply]
    cases hl : last_margin es j i with
    | none => rfl
    | some c =>
      have hmem := last_margin_mem es j i c hl
      have h1 := hcons _ hmem
      have h2 := (hv _ hmem).2.2.2.2
      simp only at h1 h2
      simp only [Option.getD_some]
      by_contra hc
      have := h1 (by omega)
      omega
  have h0 : ranking_penalty n w (initialize_ranking n) = 0 := by
    rw [ranking_penalty_eq_wrap, penalty_initialize_zero n w hzero]
    rfl
  have hge : ∀ p, IsRanking n p → 0 ≤ ranking_penalty n w p := by
    intro p hp
    have hp0 := penalty_nonneg n w p hp (fun a b _ _ _ _ => hnn a b)
    rw [ranking_penalty_eq_wrap, wrap32_of_range _ hp0 (hno p hp)]
    exact hp0
  intro fuel hf
  have hfind := find_first_of_min n w (fun p hp => by rw [h0]; exact hge p hp) fuel hf
  refine ⟨hfind, h0, ?_⟩
  rw [main_of_ok b0 c0 _ fuel n w _ hacc hfind, h0]
  rfl

theorem C4_consistent_identity_witness :
    find_kemeny_ranking 3 (store_edges zero_weight [(0, 1, 5), (1, 2, 3), (0, 2, 0)]) 6 =
      some (candidates 3) ∧
    ranking_penalty 3 (store_edges zero_weight [(0, 1, 5), (1, 2, 3), (0, 2, 0)])
      (candidates 3) = 0 ∧
    main 0 0 (((3 : Nat) : Int) :: encode [(0, 1, 5), (1, 2, 3), (0, 2, 0)]) 6 =
      Except.ok (some (candidates 3, 0)) :=
  C4_consistent_identity 3 0 0 [(0, 1, 5), (1, 2, 3), (0, 2, 0)]
    (store_edges zero_weight [(0, 1, 5), (1, 2, 3), (0, 2, 0)]) (by decide) (by decide)
    (read_input_of_no_conflict 0 0 3 _ _ (by rfl) (by rfl)) (by decide)
    (fun p hp => (by decide : ∀ q ∈ [[(0 : Int), 1, 2], [0, 2, 1], [1, 0, 2], [1, 2, 0],
        [2, 0, 1], [2, 1, 0]],
      penalty 3 (store_edges zero_weight [(0, 1, 5), (1, 2, 3), (0, 2, 0)]) q ≤ INT_MAX) p
      (rankings_three p hp)) 6 (by decide)

theorem find_conflict_of_none (n : Int) (w : Weight)
    (h : ∀ a b : Nat, a < n.toNat → b < n.toNat → ¬ (w a b > 0 ∧ w b a > 0)) :
    find_conflict n w = none := by
  simp only [find_conflict, List.find?_eq_none, List.mem_flatMap, List.mem_map,
    List.mem_range, decide_eq_true_eq]
  rintro ⟨x, y⟩ ⟨a, ha, b, hb, e⟩
  simp only [Prod.mk.injEq] at e
  obtain ⟨rfl, rfl⟩ := e
  exact h a b ha hb

theorem cycle_weight (c : Int) (x y : Int) :
    store_edges zero_weight (cycle_edges c) x y =
      if x = 0 ∧ y = 2 then c else if x = 2 ∧ y = 1 then c else if x = 1 ∧ y = 0 then c
      else 0 := by
  simp only [cycle_edges, store_edges, store, zero_weight]

theorem cycle_accepted (c b0 c0 : Int) (hc : 0 < c) :
    read_input b0 c0 (3 :: encode (cycle_edges c)) =
      Except.ok (3, store_edges zero_weight (cycle_edges c)) := by
  apply read_input_of_no_conflict
  · apply read_edges_valid
    intro e he
    simp only [cycle_edges, List.mem_cons, List.mem_singleton, List.not_mem_nil, or_false] at he
    rcases he with rfl | rfl | rfl <;> simp only [valid_edge] <;> omega
  · apply find_conflict_of_none
    intro a b ha hb
    have ha3 : a < 3 := by simpa using ha
    have hb3 : b < 3 := by simpa using hb
    rw [cycle_weight, cycle_weight]
    interval_cases a <;> interval_cases b <;> simp

theorem cycle_penalties (c : Int) :
    penalty 3 (store_edges zero_weight (cycle_edges c)) [0, 1, 2] = c ∧
    penalty 3 (store_edges zero_weight (cycle_edges c)) [0, 2, 1] = 2 * c ∧
    penalty 3 (store_edges zero_weight (cycle_edges c)) [1, 0, 2] = 2 * c ∧
    penalty 3 (store_edges zero_weight (cycle_edges c)) [1, 2, 0] = c ∧
    penalty 3 (store_edges zero_weight (cycle_edges c)) [2, 0, 1] = c ∧
    penalty 3 (store_edges zero_weight (cycle_edges c)) [2, 1, 0] = 2 * c := by
  have e : ∀ x y z : Int, penalty 3 (store_edges zero_weight (cycle_edges c)) [x, y, z] =
      store_edges zero_weight (cycle_edges c) x y + store_edges zero_weight (cycle_edges c) x z
        + store_edges zero_weight (cycle_edges c) y z := by
    intro x y z
    simp [penalty, List.range_succ, List.range', rd]
  simp only [e, cycle_weight]
  refine ⟨?_, ?_, ?_, ?_, ?_, ?_⟩ <;> simp <;> ring

theorem cycle_ranking_penalties (c : Int) (hc : 0 < c) (hc2 : c < 1073741824) :
    ranking_penalty 3 (store_edges zero_weight (cycle_edges c)) [0, 1, 2] = c ∧
    ranking_penalty 3 (store_edges zero_weight (cycle_edges c)) [0, 2, 1] = 2 * c ∧
    ranking_penalty 3 (store_edges zero_weight (cycle_edges c)) [1, 0, 2] = 2 * c ∧
    ranking_penalty 3 (store_edges zero_weight (cycle_edges c)) [1, 2, 0] = c ∧
    ranking_penalty 3 (store_edges zero_weight (cycle_edges c)) [2, 0, 1] = c ∧
    ranking_penalty 3 (store_edges zero_weight (cycle_edges c)) [2, 1, 0] = 2 * c := by
  obtain ⟨e1, e2, e3, e4, e5, e6⟩ := cycle_penalties c
  have r1 : wrap32 c = c := wrap32_of_range c (by omega) (by unfold INT_MAX; omega)
  have r2 : wrap32 (2 * c) = 2 * c :=
    wrap32_of_range (2 * c) (by omega) (by unfold INT_MAX; omega)
  simp only [ranking_penalty_eq_wrap, e1, e2, e3, e4, e5, e6, r1, r2, and_self]

/-- C5 fails as stated: with the margin `c = 1073741824` the cycle is accepted, but the
penalty `2c` of `[0,2,1]` overflows the C `int`, and the program prints the ranking
`[0,2,1]` with score `-2147483648`, not `[0,1,2]` with score `c`. -/
theorem C5_counterexample :
    (0 : Int) < 1073741824 ∧
    read_input 0 0 (3 :: encode (cycle_edges 1073741824)) =
      Except.ok (3, store_edges zero_weight (cycle_edges 1073741824)) ∧
    ranking_penalty 3 (store_edges zero_weight (cycle_edges 1073741824)) [0, 2, 1] =
      -2147483648 ∧
    main 0 0 (3 :: encode (cycle_edges 1073741824)) 6 =
      Except.ok (some ([0, 2, 1], -2147483648)) :=
  ⟨by decide, cycle_accepted 1073741824 0 0 (by decide), by decide, by rfl⟩

/-- C5, amended.  For `n = 3` and the edges `(0,1,c), (1,2,c), (2,0,c)` with a margin
`0 < c < 2^30` (so that `2c` fits a C `int`): `read_input` accepts the input, no
permutation has penalty 0, the minimum penalty is `c`, the permutations achieving it
are exactly `[0,1,2]`, `[1,2,0]`, `[2,0,1]`, the other three have penalty `2c`, and
`find_kemeny_ranking` returns `[0,1,2]`, printed with score `c`. -/
theorem C5_preference_cycle (c b0 c0 : Int) (hc : 0 < c) (hc2 : c < 1073741824) :
    read_input b0 c0 (3 :: encode (cycle_edges c)) =
      Except.ok (3, store_edges zero_weight (cycle_edges c)) ∧
    (∀ p, IsRanking 3 p → ranking_penalty 3 (store_edges zero_weight (cycle_edges c)) p ≠ 0) ∧
    (∀ p, IsRanking 3 p → c ≤ ranking_penalty 3 (store_edges zero_weight (cycle_edges c)) p) ∧
    (∀ p, IsRanking 3 p →
      (ranking_penalty 3 (store_edges zero_weight (cycle_edges c)) p = c ↔
        p = [0, 1, 2] ∨ p = [1, 2, 0] ∨ p = [2, 0, 1])) ∧
    (∀ p, IsRanking 3 p → p ≠ [0, 1, 2] → p ≠ [1, 2, 0] → p ≠ [2, 0, 1] →
      ranking_penalty 3 (store_edges zero_weight (cycle_edges c)) p = 2 * c) ∧
    (∀ fuel, 3 ! ≤ fuel →
      find_kemeny_ranking 3 (store_edges zero_weight (cycle_edges c)) fuel = some [0, 1, 2] ∧
      main b0 c0 (3 :: encode (cycle_edges c)) fuel = Except.ok (some ([0, 1, 2], c))) := by
  obtain ⟨e1, e2, e3, e4, e5, e6⟩ := cycle_ranking_penalties c hc hc2
  have hacc := cycle_accepted c b0 c0 hc
  have hcases : ∀ p, IsRanking 3 p →
      p = [0, 1, 2] ∨ p = [0, 2, 1] ∨ p = [1, 0, 2] ∨ p = [1, 2, 0] ∨ p = [2, 0, 1] ∨
        p = [2, 1, 0] := by
    intro p hp
    simpa using rankings_three p hp
  have hge : ∀ p, IsRanking 3 p →
      c ≤ ranking_penalty 3 (store_edges zero_weight (cycle_edges c)) p := by
    intro p hp
    rcases hcases p hp with rfl | rfl | rfl | rfl | rfl | rfl <;> omega
  have hfind : ∀ fuel, 3 ! ≤ fuel →
      find_kemeny_ranking 3 (store_edges zero_weight (cycle_edges c)) fuel =
        some [0, 1, 2] := by
    have := find_first_of_min 3 (store_edges zero_weight (cycle_edges c)) (fun p hp => by
      have e : initialize_ranking 3 = [0, 1, 2] := by decide
      rw [e, e1]
      exact hge p hp)
    have e : initialize_ranking 3 = [0, 1, 2] := by decide
    rw [e] at this
    exact this
  refine ⟨hacc, ?_, hge, ?_, ?_, ?_⟩
  · intro p hp
    have := hge p hp
    omega
  · intro p hp
    rcases hcases p hp with rfl | rfl | rfl | rfl | rfl | rfl
    · simp [e1]
    · rw [e2]; simp; omega
    · rw [e3]; simp; omega
    · simp [e4]
    · simp [e5]
    · rw [e6]; simp; omega
  · intro p hp h1 h2 h3
    rcases hcases p hp with rfl | rfl | rfl | rfl | rfl | rfl
    · exact absurd rfl h1
    · exact e2
    · exact e3
    · exact absurd rfl h2
    · exact absurd rfl h3
    · exact e6
  · intro fuel hf
    refine ⟨hfind fuel hf, ?_⟩
    have := main_of_ok b0 c0 (3 :: encode (cycle_edges c)) fuel 3
      (store_edges zero_weight (cycle_edges c)) [0, 1, 2] hacc (hfind fuel hf)
    rw [this, e1]

theorem C5_preference_cycle_witness :
    read_input 0 0 (3 :: encode (cycle_edges 1)) =
      Except.ok (3, store_edges zero_weight (cycle_edges 1)) ∧
    (∀ p, IsRanking 3 p → ranking_penalty 3 (store_edges zero_weight (cycle_edges 1)) p ≠ 0) ∧
    (∀ p, IsRanking 3 p → 1 ≤ ranking_penalty 3 (store_edges zero_weight (cycle_edges 1)) p) ∧
    (∀ p, IsRanking 3 p →
      (ranking_penalty 3 (store_edges zero_weight (cycle_edges 1)) p = 1 ↔
        p = [0, 1, 2] ∨ p = [1, 2, 0] ∨ p = [2, 0, 1])) ∧
    (∀ p, IsRanking 3 p → p ≠ [0, 1, 2] → p ≠ [1, 2, 0] → p ≠ [2, 0, 1] →
      ranking_penalty 3 (store_edges zero_weight (cycle_edges 1)) p = 2 * 1) ∧
    (∀ fuel, 3 ! ≤ fuel →
      find_kemeny_ranking 3 (store_edges zero_weight (cycle_edges 1)) fuel = some [0, 1, 2] ∧
      main 0 0 (3 :: encode (cycle_edges 1)) fuel = Except.ok (some ([0, 1, 2], 1))) :=
  C5_preference_cycle 1 0 0 (by decide) (by decide)

/-- C11 (exhaustion).  For `1 ≤ n ≤ 100` and a permutation `p` of `0..n-1` held in
`ranking`, `next_ranking_permutation` returns 0 if and only if `p` is strictly
decreasing, which is to say `p = [n-1,…,0]`; and when it returns 0 the array is left
unchanged. -/
theorem C11_exhaustion (n : Nat) (p : Ranking) (_ : 1 ≤ n) (_ : n ≤ 100)
    (hp : IsRanking n p) :
    ((next_ranking_permutation n p).1 = false ↔ p.Pairwise (fun u v => v < u)) ∧
    (p.Pairwise (fun u v => v < u) ↔ p = (candidates n).reverse) ∧
    ((next_ranking_permutation n p).1 = false → (next_ranking_permutation n p).2 = p) := by
  have hrev : p.Pairwise (fun u v => v < u) ↔ p = (initialize_ranking n).reverse := by
    constructor
    · exact desc_ranking_eq n p hp
    · intro e
      have hd : (initialize_ranking n).reverse.Pairwise (fun u v => v ≤ u) := by
        rw [List.pairwise_reverse]
        exact initialize_ranking_asc n
      rw [e]
      exact strict_of_desc_nodup hd (List.nodup_reverse.2 (initialize_ranking_nodup n))
  rcases next_on_ranking n p hp with ⟨hnext, hdesc⟩ | ⟨q, hnext, hq, hpq, _⟩
  · rw [hnext]
    exact ⟨⟨fun _ => hdesc, fun _ => rfl⟩, hrev, fun _ => rfl⟩
  · rw [hnext]
    refine ⟨⟨fun h => by simp at h, fun hdesc => ?_⟩, hrev, fun h => by simp at h⟩
    exact absurd hpq (lexLt_desc_max p q (hdesc.imp (fun h => le_of_lt h))
      (hq.trans hp.symm))

theorem C11_exhaustion_witness :
    ((next_ranking_permutation 3 [2, 1, 0]).1 = false ↔
      [(2 : Int), 1, 0].Pairwise (fun u v => v < u)) ∧
    ([(2 : Int), 1, 0].Pairwise (fun u v => v < u) ↔
      [(2 : Int), 1, 0] = (candidates 3).reverse) ∧
    ((next_ranking_permutation 3 [2, 1, 0]).1 = false →
      (next_ranking_permutation 3 [2, 1, 0]).2 = [2, 1, 0]) :=
  C11_exhaustion 3 [2, 1, 0] (by decide) (by decide) (by decide)

theorem pivot_scan_accesses_le (r : Ranking) : ∀ k, ∀ x ∈ pivot_scan_accesses r k, x ≤ k
  | 0, x, hx => by simp [pivot_scan_accesses] at hx
  | k + 1, x, hx => by
    simp only [pivot_scan_accesses, List.mem_cons] at hx
    rcases hx with rfl | rfl | hx
    · omega
    · omega
    · split at hx
      · simp at hx
      · have := pivot_scan_accesses_le r k x hx
        omega

theorem pivot_scan_accesses_zero (r : Ranking) : pivot_scan_accesses r 0 = [] := rfl

theorem swap_scan_accesses_le (r : Ranking) (i : Nat) :
    ∀ j0, ∀ x ∈ swap_scan_accesses r i j0, x ≤ j0
  | 0, x, hx => by simp [swap_scan_accesses] at hx
  | j + 1, x, hx => by
    simp only [swap_scan_accesses] at hx
    split at hx
    · simp only [List.mem_cons] at hx
      rcases hx with rfl | rfl | hx
      · omega
      · omega
      · split at hx
        · simp at hx
        · have := swap_scan_accesses_le r i j x hx
          omega
    · simp at hx

theorem swap_scan_le (r : Ranking) (i : Nat) : ∀ j0, swap_scan r i j0 ≤ j0
  | 0 => by simp [swap_scan]
  | j + 1 => by
    simp only [swap_scan]
    split
    · split
      · exact le_refl _
      · have := swap_scan_le r i j
        omega
    · exact le_refl _

/-- C12 (indexing in bounds; the swap partner exists).  For `0 ≤ n ≤ 100` and a
`ranking` array of `n` distinct values, every position `next_ranking_permutation`
reads or writes lies in `[0, n)`; and whenever the first scan stops at some `i ≥ 0`, the
second scan stops at a `j` with `i < j ≤ n-1` and `ranking[j] > ranking[i]`, the
rightmost such position. -/
theorem C12_in_bounds (n : Nat) (r : Ranking) (_ : n ≤ 100) (hlen : r.length = n)
    (_ : r.Nodup) :
    (∀ x ∈ next_accesses n r, x < n) ∧
    (∀ i, pivot_scan r (n - 1) = some i →
      i < swap_scan r i (n - 1) ∧ swap_scan r i (n - 1) ≤ n - 1 ∧
      rd r i < rd r (swap_scan r i (n - 1)) ∧
      ∀ m, swap_scan r i (n - 1) < m → m ≤ n - 1 → ¬ rd r i < rd r m) := by
  have hsecond : ∀ i, pivot_scan r (n - 1) = some i →
      i < swap_scan r i (n - 1) ∧ swap_scan r i (n - 1) ≤ n - 1 ∧
      rd r i < rd r (swap_scan r i (n - 1)) ∧
      ∀ m, swap_scan r i (n - 1) < m → m ≤ n - 1 → ¬ rd r i < rd r m := by
    intro i hi
    obtain ⟨h1, h2, _⟩ := pivot_scan_some r i (n - 1) hi
    exact swap_scan_spec r i h2 (n - 1) h1
  refine ⟨fun x hx => ?_, hsecond⟩
  simp only [next_accesses, List.mem_append] at hx
  rcases hx with hx | hx
  · by_cases hn : n - 1 = 0
    · rw [hn, pivot_scan_accesses_zero] at hx
      simp at hx
    · have := pivot_scan_accesses_le r (n - 1) x hx
      omega
  · cases hp : pivot_scan r (n - 1) with
    | none => rw [hp] at hx; simp at hx
    | some i =>
      rw [hp] at hx
      obtain ⟨hi, _, _⟩ := pivot_scan_some r i (n - 1) hp
      obtain ⟨hj1, hj2, _, _⟩ := hsecond i hp
      simp only [List.mem_append, List.mem_cons, List.mem_flatMap, List.mem_range,
        List.not_mem_nil, or_false] at hx
      rcases hx with (hx | hx) | ⟨m, hm, hx⟩
      · have := swap_scan_accesses_le r i (n - 1) x hx
        omega
      · rcases hx with rfl | rfl | rfl | rfl <;> omega
      · rcases hx with rfl | rfl | rfl | rfl <;> omega

theorem C12_in_bounds_witness :
    (∀ x ∈ next_accesses 5 [10, 40, 50, 30, 20], x < 5) ∧
    (∀ i, pivot_scan [10, 40, 50, 30, 20] (5 - 1) = some i →
      i < swap_scan [10, 40, 50, 30, 20] i (5 - 1) ∧
      swap_scan [10, 40, 50, 30, 20] i (5 - 1) ≤ 5 - 1 ∧
      rd [10, 40, 50, 30, 20] i < rd [10, 40, 50, 30, 20] (swap_scan [10, 40, 50, 30, 20] i (5 - 1)) ∧
      ∀ m, swap_scan [10, 40, 50, 30, 20] i (5 - 1) < m → m ≤ 5 - 1 →
        ¬ rd [10, 40, 50, 30, 20] i < rd [10, 40, 50, 30, 20] m) :=
  C12_in_bounds 5 [10, 40, 50, 30, 20] (by decide) (by decide) (by decide)

theorem penalty_accesses_length (n : Nat) : (penalty_accesses n).length = n * (n - 1) / 2 := by
  have h : ∀ m, ((List.range m).map (fun i => m - (i + 1))).sum = m * (m - 1) / 2 := by
    intro m
    induction m with
    | zero => rfl
    | succ k ih =>
      rw [List.range_succ_eq_map, List.map_cons, List.map_map, List.sum_cons]
      have e : ((fun i => k + 1 - (i + 1)) ∘ Nat.succ) = fun i => k - (i + 1) := by
        funext i
        simp only [Function.comp, Nat.succ_eq_add_one]
        omega
      rw [e, ih]
      have h2 : k * (k - 1) % 2 = 0 := by
        rcases Nat.even_or_odd k with ⟨t, ht⟩ | ⟨t, ht⟩
        · subst ht
          rw [show (t + t) * (t + t - 1) = 2 * (t * (t + t - 1)) by ring]
          exact Nat.mul_mod_right _ _
        · subst ht
          rw [show (2 * t + 1) * (2 * t + 1 - 1) = 2 * ((2 * t + 1) * t) by
            rw [show 2 * t + 1 - 1 = 2 * t by omega]; ring]
          exact Nat.mul_mod_right _ _
      have h3 : (k + 1) * (k + 1 - 1) = k * (k - 1) + 2 * k := by
        cases k with
        | zero => rfl
        | succ j =>
          simp only [Nat.add_sub_cancel]
          ring
      rw [h3]
      omega
  simp only [penalty_accesses, List.length_flatMap]
  have e : (List.length ∘ fun i => List.map (fun j => (i, j))
      (List.range' (i + 1) (n - (i + 1)))) = fun i => n - (i + 1) := by
    funext i
    simp
  rw [e]
  exact h n

theorem penalty_eq_sum_accesses (n : Nat) (w : Weight) (r : Ranking) :
    penalty n w r = ((penalty_accesses n).map (fun ij => w (rd r ij.1) (rd r ij.2))).sum := by
  simp only [penalty, penalty_accesses, List.map_flatMap, List.map_map]
  rw [List.flatMap, List.sum_flatten, List.map_map]
  rfl

/-- C13 fails as stated: for `n = 3` the accepted edge list
`(0,1,2147483647), (0,2,2147483647)` and the ranking `[1,2,0]` give the exact sum
`4294967294`, and `ranking_penalty`, adding in a C `int`, returns `-2`. -/
theorem C13_counterexample :
    read_input 0 0 (3 :: encode [(0, 1, 2147483647), (0, 2, 2147483647)]) =
      Except.ok (3, store_edges zero_weight [(0, 1, 2147483647), (0, 2, 2147483647)]) ∧
    IsRanking 3 [1, 2, 0] ∧
    penalty 3 (store_edges zero_weight [(0, 1, 2147483647), (0, 2, 2147483647)]) [1, 2, 0] =
      4294967294 ∧
    ranking_penalty 3 (store_edges zero_weight [(0, 1, 2147483647), (0, 2, 2147483647)])
      [1, 2, 0] = -2 :=
  ⟨read_input_of_no_conflict 0 0 3 _ _ (by rfl) (by rfl), by decide, by decide, by decide⟩

/-- C13, amended.  For `1 ≤ n ≤ 100`, an input accepted by `read_input` and a
permutation held in `ranking`: `ranking_penalty` adds `n(n-1)/2` weights, their exact
sum is non-negative, and the value returned, computed in 32-bit C `int` arithmetic, is
that sum reduced modulo `2^32` to the `int` range; it is non-negative and equal to the
exact sum whenever the exact sum does not exceed `INT_MAX`. -/
theorem C13_score_nonneg (n : Nat) (b0 c0 : Int) (input : List Int) (w : Weight)
    (p : Ranking) (_ : 1 ≤ n) (_ : n ≤ 100)
    (hacc : read_input b0 c0 input = Except.ok ((n : Int), w)) (hp : IsRanking n p) :
    (penalty_accesses n).length = n * (n - 1) / 2 ∧
    penalty n w p = ((penalty_accesses n).map (fun ij => w (rd p ij.1) (rd p ij.2))).sum ∧
    0 ≤ penalty n w p ∧
    ranking_penalty n w p = wrap32 (penalty n w p) ∧
    (penalty n w p ≤ INT_MAX →
      0 ≤ ranking_penalty n w p ∧ ranking_penalty n w p = penalty n w p) := by
  obtain ⟨hnn, _⟩ := read_input_invariant b0 c0 input n w hacc
  have h0 := penalty_nonneg n w p hp (fun a b _ _ _ _ => hnn a b)
  refine ⟨penalty_accesses_length n, penalty_eq_sum_accesses n w p, h0,
    ranking_penalty_eq_wrap n w p, fun hle => ?_⟩
  have e : ranking_penalty n w p = penalty n w p := by
    rw [ranking_penalty_eq_wrap]
    exact wrap32_of_range _ h0 hle
  rw [e]
  exact ⟨h0, rfl⟩

theorem C13_score_nonneg_witness :
    (penalty_accesses 3).length = 3 * (3 - 1) / 2 ∧
    penalty 3 (store_edges zero_weight [(0, 1, 5), (1, 2, 3)]) [2, 1, 0] =
      ((penalty_accesses 3).map (fun ij =>
        store_edges zero_weight [(0, 1, 5), (1, 2, 3)] (rd [2, 1, 0] ij.1)
          (rd [2, 1, 0] ij.2))).sum ∧
    0 ≤ penalty 3 (store_edges zero_weight [(0, 1, 5), (1, 2, 3)]) [2, 1, 0] ∧
    ranking_penalty 3 (store_edges zero_weight [(0, 1, 5), (1, 2, 3)]) [2, 1, 0] =
      wrap32 (penalty 3 (store_edges zero_weight [(0, 1, 5), (1, 2, 3)]) [2, 1, 0]) ∧
    (penalty 3 (store_edges zero_weight [(0, 1, 5), (1, 2, 3)]) [2, 1, 0] ≤ INT_MAX →
      0 ≤ ranking_penalty 3 (store_edges zero_weight [(0, 1, 5), (1, 2, 3)]) [2, 1, 0] ∧
      ranking_penalty 3 (store_edges zero_weight [(0, 1, 5), (1, 2, 3)]) [2, 1, 0] =
        penalty 3 (store_edges zero_weight [(0, 1, 5), (1, 2, 3)]) [2, 1, 0]) :=
  C13_score_nonneg 3 0 0 (3 :: encode [(0, 1, 5), (1, 2, 3)])
    (store_edges zero_weight [(0, 1, 5), (1, 2, 3)]) [2, 1, 0] (by decide) (by decide)
    (read_input_of_no_conflict 0 0 3 _ _ (by rfl) (by rfl)) (by decide)

theorem last_margin_some_of_mem : ∀ (es : List (Int × Int × Int)) (a b c : Int),
    (a, b, c) ∈ es → ∃ c1, last_margin es a b = some c1
  | [], _, _, _, h => by simp at h
  | (a0, b0, c0) :: es, a, b, c, h => by
    simp only [last_margin]
    cases h1 : last_margin es a b with
    | some c1 => exact ⟨c1, rfl⟩
    | none =>
      rcases List.mem_cons.1 h with e | hm
      · simp only [Prod.mk.injEq] at e
        obtain ⟨rfl, rfl, rfl⟩ := e
        exact ⟨c, by simp⟩
      · obtain ⟨c1, hc1⟩ := last_margin_some_of_mem es a b c hm
        rw [hc1] at h1
        simp at h1

/-- C14 fails as stated: for `n = 2` and the single triple `(0, 1, 5)` the input is
accepted and `weight[0][1]` is 0, not 5; the margin is in `weight[1][0]`. -/
theorem C14_counterexample :
    read_input 0 0 (2 :: encode [(0, 1, 5)]) =
      Except.ok (2, store_edges zero_weight [(0, 1, 5)]) ∧
    store_edges zero_weight [(0, 1, 5)] 0 1 = 0 ∧
    store_edges zero_weight [(0, 1, 5)] 1 0 = 5 :=
  ⟨read_input_of_no_conflict 0 0 2 _ _ (by rfl) (by rfl), by decide, by decide⟩

/-- C14, amended.  The stored matrix is indexed (loser, winner): for every accepted
input of `int` values with `n ≤ 100` and every input triple `(a, b, c)` that is the only
triple naming the pair `{a, b}`, after `read_input` the entry `weight[b][a]` equals `c`,
and for `a ≠ b` the entry `weight[a][b]` equals 0. -/
theorem C14_matrix_index (n m b0 c0 : Int) (es : List (Int × Int × Int)) (w : Weight)
    (a b c : Int) (_ : n ≤ 100) (_ : int_input (n :: encode es))
    (hacc : read_input b0 c0 (n :: encode es) = Except.ok (m, w))
    (hmem : (a, b, c) ∈ es)
    (honly : ∀ e ∈ es, (e.1 = a ∧ e.2.1 = b) ∨ (e.1 = b ∧ e.2.1 = a) → e = (a, b, c)) :
    w b a = c ∧ (a ≠ b → w a b = 0) := by
  obtain ⟨_, _, hw, _⟩ := accepted_edges b0 c0 n m es w hacc
  subst hw
  constructor
  · obtain ⟨c1, hc1⟩ := last_margin_some_of_mem es a b c hmem
    have := honly _ (last_margin_mem es a b c1 hc1) (Or.inl ⟨rfl, rfl⟩)
    simp only [Prod.mk.injEq, true_and] at this
    rw [store_edges_apply, hc1, this]
    rfl
  · intro hab
    rw [store_edges_apply]
    cases hl : last_margin es b a with
    | none => rfl
    | some c1 =>
      have := honly _ (last_margin_mem es b a c1 hl) (Or.inr ⟨rfl, rfl⟩)
      simp only [Prod.mk.injEq] at this
      exact absurd this.1.symm hab

theorem C14_matrix_index_witness :
    store_edges zero_weight [(0, 1, 5), (1, 2, 3), (0, 2, 0)] 2 1 = 3 ∧
    ((1 : Int) ≠ 2 → store_edges zero_weight [(0, 1, 5), (1, 2, 3), (0, 2, 0)] 1 2 = 0) :=
  C14_matrix_index 3 3 0 0 [(0, 1, 5), (1, 2, 3), (0, 2, 0)]
    (store_edges zero_weight [(0, 1, 5), (1, 2, 3), (0, 2, 0)]) 1 2 3 (by decide)
    (by decide)
    (read_input_of_no_conflict 0 0 3 _ _ (by rfl) (by rfl)) (by decide) (by decide)

/-- C15 fails as stated: for `n = 3` the edge list with the single self-edge
`(1, 1, 0)` (index in range, `c ≥ 0`) is accepted, and the program prints a ranking. -/
theorem C15_counterexample :
    ((1 : Int), (1 : Int), (0 : Int)) ∈ [((1 : Int), (1 : Int), (0 : Int))] ∧
    valid_edge 3 (1, 1, 0) ∧
    read_input 0 0 (3 :: encode [(1, 1, 0)]) =
      Except.ok (3, store_edges zero_weight [(1, 1, 0)]) ∧
    main 0 0 (3 :: encode [(1, 1, 0)]) 6 = Except.ok (some ([0, 1, 2], 0)) :=
  ⟨by decide, by decide, read_input_of_no_conflict 0 0 3 _ _ (by rfl) (by rfl), by rfl⟩

/-- C15, amended.  For every `n ≤ 100` and every edge list of valid triples of `int`
values in which the last triple naming `(a, a)` has a margin `c > 0`, `read_input` ends
in the fatal path: it has no check for `a = b`, but the check of the final matrix finds
`weight[a][a]` positive in both directions. -/
theorem C15_self_edge (n b0 c0 : Int) (es : List (Int × Int × Int)) (fuel : Nat)
    (a c : Int) (_ : n ≤ 100) (_ : int_input (n :: encode es)) (hvalid : ∀ e ∈ es, valid_edge n e)
    (haa : last_margin es a a = some c) (hc : 0 < c) :
    ∃ x y, read_input b0 c0 (n :: encode es) =
        Except.error (Fatal.connected_bidirectionally x y) ∧
      main b0 c0 (n :: encode es) fuel = Except.error (Fatal.connected_bidirectionally x y) := by
  have hread := read_edges_valid n es (if 0 < n then n else b0) c0 zero_weight hvalid
  have hv := hvalid _ (last_margin_mem es a a c haa)
  simp only [valid_edge] at hv
  have h1 : store_edges zero_weight es a a = c := by rw [store_edges_apply, haa]; rfl
  obtain ⟨ab, hfc⟩ := find_conflict_some n (store_edges zero_weight es) a a hv.1 hv.2.1
    hv.1 hv.2.1 (by rw [h1]; exact hc) (by rw [h1]; exact hc)
  have e := read_input_of_conflict b0 c0 n (encode es) _ ab hread hfc
  exact ⟨ab.1, ab.2, e, main_of_error _ _ _ _ _ e⟩

theorem C15_self_edge_witness :
    ∃ x y, read_input 0 0 (3 :: encode [(0, 1, 3), (2, 2, 4)]) =
        Except.error (Fatal.connected_bidirectionally x y) ∧
      main 0 0 (3 :: encode [(0, 1, 3), (2, 2, 4)]) 6 =
        Except.error (Fatal.connected_bidirectionally x y) :=
  C15_self_edge 3 0 0 [(0, 1, 3), (2, 2, 4)] 6 2 4 (by decide) (by decide) (by decide)
    (by decide) (by decide)

theorem read_edges_three (n : Int) (a b c b1 c1 : Int) (w : Weight) :
    read_edges n [a, b, c] b1 c1 w = read_edge n w a b c := by
  cases h : read_edge n w a b c with
  | error f => exact read_edges_cons_error n a b c [] b1 c1 w f h
  | ok w1 =>
    rw [read_edges_cons_ok n a b c [] b1 c1 w w1 h]
    rfl

/-- One integer left after the triples: the loop body runs on it and on the values `b`
and `c` still hold. -/
theorem read_edges_tail_one (n x : Int) : ∀ (es : List (Int × Int × Int)) (b c : Int)
    (w : Weight),
    read_edges n (encode es ++ [x]) b c w =
      read_edges n (encode (es ++ [(x, (stale_locals es b c).1, (stale_locals es b c).2)]))
        b c w
  | [], b, c, w => by
    simp only [encode, List.nil_append, stale_locals]
    rw [read_edges_three]
    rfl
  | (a0, b0, c0) :: es, b, c, w => by
    simp only [encode, List.cons_append, stale_locals]
    cases h : read_edge n w a0 b0 c0 with
    | error f =>
      rw [read_edges_cons_error n a0 b0 c0 _ b c w f h,
        read_edges_cons_error n a0 b0 c0 _ b c w f h]
    | ok w1 =>
      rw [read_edges_cons_ok n a0 b0 c0 _ b c w w1 h,
        read_edges_cons_ok n a0 b0 c0 _ b c w w1 h]
      exact read_edges_tail_one n x es b0 c0 w1

/-- Two integers left after the triples: the loop body runs on them and on the value
`c` still holds. -/
theorem read_edges_tail_two (n x y : Int) : ∀ (es : List (Int × Int × Int)) (b c : Int)
    (w : Weight),
    read_edges n (encode es ++ [x, y]) b c w =
      read_edges n (encode (es ++ [(x, y, (stale_locals es b c).2)])) b c w
  | [], b, c, w => by
    simp only [encode, List.nil_append, stale_locals]
    rw [read_edges_three]
    rfl
  | (a0, b0, c0) :: es, b, c, w => by
    simp only [encode, List.cons_append, stale_locals]
    cases h : read_edge n w a0 b0 c0 with
    | error f =>
      rw [read_edges_cons_error n a0 b0 c0 _ b c w f h,
        read_edges_cons_error n a0 b0 c0 _ b c w f h]
    | ok w1 =>
      rw [read_edges_cons_ok n a0 b0 c0 _ b c w w1 h,
        read_edges_cons_ok n a0 b0 c0 _ b c w w1 h]
      exact read_edges_tail_two n x y es b0 c0 w1

/-- C16, the code at the failing inputs.  On the input `3, 1 0 5, 2 1` the incomplete
tail `2 1` is not dropped: the loop body runs on `a = 2`, `b = 1` and the stale `c = 5`
and stores `weight[1][2] = 5`, so the matrix and the printed ranking differ from those
of the input `3, 1 0 5`.  On the input `3, 0 1 5, 1` the tail `1` is run with the stale
`b = 1`, `c = 5` and makes `read_input` end in `fatal`, while `3, 0 1 5` is accepted. -/
theorem C16_short_tail_is_processed :
    read_input 0 0 [3, 1, 0, 5, 2, 1] =
      Except.ok (3, store_edges zero_weight [(1, 0, 5), (2, 1, 5)]) ∧
    read_input 0 0 [3, 1, 0, 5] = Except.ok (3, store_edges zero_weight [(1, 0, 5)]) ∧
    store_edges zero_weight [(1, 0, 5), (2, 1, 5)] 1 2 = 5 ∧
    store_edges zero_weight [(1, 0, 5)] 1 2 = 0 ∧
    main 0 0 [3, 1, 0, 5, 2, 1] 6 = Except.ok (some ([2, 1, 0], 0)) ∧
    main 0 0 [3, 1, 0, 5] 6 = Except.ok (some ([1, 0, 2], 0)) ∧
    read_input 0 0 [3, 0, 1, 5, 1] = Except.error (Fatal.connected_bidirectionally 1 1) ∧
    read_input 0 0 [3, 0, 1, 5] = Except.ok (3, store_edges zero_weight [(0, 1, 5)]) :=
  ⟨read_input_of_no_conflict 0 0 3 _ _ (by rfl) (by rfl),
    read_input_of_no_conflict 0 0 3 _ _ (by rfl) (by rfl), by decide, by decide, by rfl,
    by rfl, by rfl, read_input_of_no_conflict 0 0 3 _ _ (by rfl) (by rfl)⟩

/-- C17 (boundary `n = 0`).  With `number_of_candidates = 0`, whatever the matrix:
`next_ranking_permutation` returns 0 at once and touches no position of `ranking`,
`ranking_penalty` reads no cell and returns 0, `find_kemeny_ranking` ends after a single
iteration of its loop, and the program prints the empty ranking with penalty 0. -/
theorem C17_boundary_zero (w : Weight) (b0 c0 : Int) :
    initialize_ranking 0 = [] ∧
    next_ranking_permutation 0 [] = (false, []) ∧
    next_accesses 0 [] = [] ∧
    penalty_accesses 0 = [] ∧
    ranking_penalty 0 w [] = 0 ∧
    find_kemeny_ranking 0 w 1 = some [] ∧
    main b0 c0 [0] 1 = Except.ok (some ([], 0)) := by
  refine ⟨rfl, rfl, rfl, rfl, rfl, rfl, ?_⟩
  have h : read_input b0 c0 [0] = Except.ok (((0 : Nat) : Int), zero_weight) :=
    read_input_of_no_conflict b0 c0 0 [] zero_weight rfl rfl
  have := main_of_ok b0 c0 [0] 1 0 zero_weight [] h rfl
  rw [this]
  rfl

/-- C18 (no false rejection).  For `1 ≤ n ≤ 100` and an edge list of complete triples
of `int` values, each with `0 ≤ a < n`, `0 ≤ b < n`, `a ≠ b` and `0 ≤ c ≤ INT_MAX`, in
which no unordered pair is given a positive margin in both directions, `read_input`
returns without a fatal error, with the matrix the triples store. -/
theorem C18_no_false_rejection (n : Nat) (b0 c0 : Int) (es : List (Int × Int × Int))
    (_ : 1 ≤ n) (_ : n ≤ 100) (_ : int_input ((n : Int) :: encode es)) (hvalid : ∀ e ∈ es, valid_edge n e)
    (_ : ∀ e ∈ es, e.1 ≠ e.2.1)
    (hnobi : ∀ e1 ∈ es, ∀ e2 ∈ es, e1.1 = e2.2.1 → e1.2.1 = e2.1 →
      ¬ (0 < e1.2.2 ∧ 0 < e2.2.2)) :
    read_input b0 c0 ((n : Int) :: encode es) =
      Except.ok ((n : Int), store_edges zero_weight es) := by
  apply read_input_of_no_conflict
  · exact read_edges_valid n es _ _ _ hvalid
  · apply find_conflict_of_none
    intro a b _ _ hab
    rw [store_edges_apply, store_edges_apply] at hab
    cases h1 : last_margin es b a with
    | none => rw [h1] at hab; simp [zero_weight] at hab
    | some c =>
      cases h2 : last_margin es a b with
      | none => rw [h2] at hab; simp [zero_weight] at hab
      | some d =>
        rw [h1, h2] at hab
        simp only [Option.getD_some] at hab
        exact hnobi _ (last_margin_mem es b a c h1) _ (last_margin_mem es a b d h2) rfl rfl
          ⟨hab.1, hab.2⟩

theorem C18_no_false_rejection_witness :
    read_input 0 0 (((3 : Nat) : Int) :: encode [(0, 1, 5), (1, 0, 0), (1, 2, 3), (2, 0, 1)]) =
      Except.ok (((3 : Nat) : Int),
        store_edges zero_weight [(0, 1, 5), (1, 0, 0), (1, 2, 3), (2, 0, 1)]) :=
  C18_no_false_rejection 3 0 0 [(0, 1, 5), (1, 0, 0), (1, 2, 3), (2, 0, 1)] (by decide)
    (by decide) (by decide) (by decide) (by decide) (by decide)

theorem last_margin_append_some : ∀ (l1 l2 : List (Int × Int × Int)) (a b c : Int),
    last_margin l2 a b = some c → last_margin (l1 ++ l2) a b = some c
  | [], _, _, _, _, h => h
  | (a0, b0, c0) :: l1, l2, a, b, c, h => by
    rw [List.cons_append, last_margin, last_margin_append_some l1 l2 a b c h]

theorem last_margin_append_none : ∀ (l1 l2 : List (Int × Int × Int)) (a b : Int),
    last_margin l2 a b = none → last_margin (l1 ++ l2) a b = last_margin l1 a b
  | [], _, _, _, h => by simpa [last_margin] using h
  | (a0, b0, c0) :: l1, l2, a, b, h => by
    rw [List.cons_append, last_margin, last_margin_append_none l1 l2 a b h, last_margin]

/-- An earlier triple for an ordered pair that a later triple names again leaves no
trace in the matrix. -/
theorem last_margin_drop_earlier (l1 l2 : List (Int × Int × Int)) (a b c1 : Int)
    (hlater : ∃ e ∈ l2, e.1 = a ∧ e.2.1 = b) (x y : Int) :
    last_margin (l1 ++ (a, b, c1) :: l2) x y = last_margin (l1 ++ l2) x y := by
  cases h : last_margin l2 x y with
  | some c =>
    rw [last_margin_append_some l1 l2 x y c h]
    apply last_margin_append_some
    simp only [last_margin, h]
  | none =>
    have hne : ¬ (a = x ∧ b = y) := by
      rintro ⟨rfl, rfl⟩
      obtain ⟨⟨a1, b1, c2⟩, he, h1, h2⟩ := hlater
      simp only at h1 h2
      subst h1 h2
      obtain ⟨c3, hc3⟩ := last_margin_some_of_mem l2 a1 b1 c2 he
      rw [hc3] at h
      simp at h
    have h2 : last_margin ((a, b, c1) :: l2) x y = none := by
      simp only [last_margin, h]
      rw [if_neg hne]
    rw [last_margin_append_none l1 l2 x y h, last_margin_append_none l1 _ x y h2]

theorem store_edges_drop_earlier (l1 l2 : List (Int × Int × Int)) (a b c1 : Int)
    (hlater : ∃ e ∈ l2, e.1 = a ∧ e.2.1 = b) (w0 : Weight) :
    store_edges w0 (l1 ++ (a, b, c1) :: l2) = store_edges w0 (l1 ++ l2) := by
  funext x y
  rw [store_edges_apply, store_edges_apply, last_margin_drop_earlier l1 l2 a b c1 hlater]

/-- C19 (duplicate edges, last one wins).  In an accepted input of `int` values, with
`n ≤ 100`, in which the ordered pair `(a, b)` is named by a triple `(a, b, c1)` and
again by a later triple: the cell
`weight[b][a]` holds the margin `c` of the last triple naming `(a, b)`, whatever `c1`
was (margins are not added); and the input without the earlier triple is accepted with
the same matrix, so validation, every penalty and the result of the search are the
same. -/
theorem C19_last_one_wins (n m b0 c0 : Int) (l1 l2 : List (Int × Int × Int))
    (a b c1 : Int) (w : Weight) (_ : n ≤ 100)
    (_ : int_input (n :: encode (l1 ++ (a, b, c1) :: l2)))
    (hacc : read_input b0 c0 (n :: encode (l1 ++ (a, b, c1) :: l2)) = Except.ok (m, w))
    (hlater : ∃ e ∈ l2, e.1 = a ∧ e.2.1 = b) :
    (∀ l3 l4 c, l2 = l3 ++ (a, b, c) :: l4 → (∀ e ∈ l4, ¬ (e.1 = a ∧ e.2.1 = b)) →
      w b a = c) ∧
    read_input b0 c0 (n :: encode (l1 ++ l2)) = Except.ok (m, w) ∧
    (∀ k p, ranking_penalty k (store_edges zero_weight (l1 ++ l2)) p = ranking_penalty k w p) ∧
    (∀ fuel, main b0 c0 (n :: encode (l1 ++ l2)) fuel =
      main b0 c0 (n :: encode (l1 ++ (a, b, c1) :: l2)) fuel) := by
  obtain ⟨hm, hv, hw, hfc⟩ := accepted_edges b0 c0 n m _ w hacc
  have hsame := store_edges_drop_earlier l1 l2 a b c1 hlater zero_weight
  have hv2 : ∀ e ∈ l1 ++ l2, valid_edge n e := by
    intro e he
    apply hv e
    rcases List.mem_append.1 he with h | h
    · exact List.mem_append.2 (Or.inl h)
    · exact List.mem_append.2 (Or.inr (List.mem_cons_of_mem _ h))
  have hacc2 : read_input b0 c0 (n :: encode (l1 ++ l2)) = Except.ok (m, w) := by
    rw [hm]
    refine read_input_of_no_conflict b0 c0 n _ w ?_ hfc
    rw [read_edges_valid n (l1 ++ l2) _ _ _ hv2, ← hsame, ← hw]
  refine ⟨?_, hacc2, ?_, ?_⟩
  · intro l3 l4 c hl2 hnone
    have h4 : last_margin l4 a b = none := by
      apply last_margin_none_of_not_mem
      intro hmem
      simp only [List.mem_map] at hmem
      obtain ⟨e, he, hp⟩ := hmem
      simp only [Prod.mk.injEq] at hp
      exact hnone e he hp
    have h5 : last_margin ((a, b, c) :: l4) a b = some c := by
      simp [last_margin, h4]
    have e : l1 ++ (a, b, c1) :: (l3 ++ (a, b, c) :: l4) =
        (l1 ++ (a, b, c1) :: l3) ++ (a, b, c) :: l4 := by simp
    rw [hw, store_edges_apply, hl2, e, last_margin_append_some _ _ a b c h5]
    rfl
  · intro k p
    rw [← hsame, ← hw]
  · intro fuel
    simp only [main, hacc, hacc2]

theorem C19_last_one_wins_witness :
    (∀ l3 l4 c, [((1 : Int), (2 : Int), (4 : Int)), (0, 1, 2)] = l3 ++ (0, 1, c) :: l4 →
      (∀ e ∈ l4, ¬ (e.1 = 0 ∧ e.2.1 = 1)) →
      store_edges zero_weight [(2, 0, 1), (0, 1, 7), (1, 2, 4), (0, 1, 2)] 1 0 = c) ∧
    read_input 0 0 (3 :: encode ([(2, 0, 1)] ++ [(1, 2, 4), (0, 1, 2)])) =
      Except.ok (3, store_edges zero_weight [(2, 0, 1), (0, 1, 7), (1, 2, 4), (0, 1, 2)]) ∧
    (∀ k p,
      ranking_penalty k (store_edges zero_weight ([(2, 0, 1)] ++ [(1, 2, 4), (0, 1, 2)])) p =
        ranking_penalty k (store_edges zero_weight [(2, 0, 1), (0, 1, 7), (1, 2, 4), (0, 1, 2)])
          p) ∧
    (∀ fuel, main 0 0 (3 :: encode ([(2, 0, 1)] ++ [(1, 2, 4), (0, 1, 2)])) fuel =
      main 0 0 (3 :: encode ([(2, 0, 1)] ++ (0, 1, 7) :: [(1, 2, 4), (0, 1, 2)])) fuel) :=
  C19_last_one_wins 3 3 0 0 [(2, 0, 1)] [(1, 2, 4), (0, 1, 2)] 0 1 7
    (store_edges zero_weight [(2, 0, 1), (0, 1, 7), (1, 2, 4), (0, 1, 2)]) (by decide)
    (by decide)
    (read_input_of_no_conflict 0 0 3 _ _ (by rfl) (by rfl)) ⟨(0, 1, 2), by decide, by decide⟩

/-- Without overflow `ranking_penalty` returns the mathematical penalty. -/
theorem ranking_penalty_exact (n : Nat) (w : Weight)
    (hw : ∀ a b : Int, 0 ≤ a → a < n → 0 ≤ b → b < n → 0 ≤ w a b)
    (hno : ∀ p, IsRanking n p → penalty n w p ≤ INT_MAX) (p : Ranking) (hp : IsRanking n p) :
    ranking_penalty n w p = penalty n w p := by
  rw [ranking_penalty_eq_wrap]
  exact wrap32_of_range _ (penalty_nonneg n w p hp hw) (hno p hp)

/-- C1 (optimality).  For `1 ≤ n ≤ 100` and a weight matrix of non-negative integers
whose penalties do not exceed `INT_MAX` (sums not overflowing), `find_kemeny_ranking`
ends (within `n!` iterations of its loop) and leaves in `ranking` a permutation of
`0..n-1`; `ranking_penalty` on it, and on every permutation, is the mathematical
penalty `Σ_{i<j} weight[π[i]][π[j]]`, and it is less than or equal to the penalty of
every permutation of `0..n-1`. -/
theorem C1_optimality (n : Nat) (w : Weight) (_ : 1 ≤ n) (_ : n ≤ 100)
    (hw : ∀ a b : Int, 0 ≤ a → a < n → 0 ≤ b → b < n → 0 ≤ w a b)
    (hno : ∀ p, IsRanking n p → penalty n w p ≤ INT_MAX) :
    ∃ r, (∀ fuel, n ! ≤ fuel → find_kemeny_ranking n w fuel = some r) ∧
      r.Perm (candidates n) ∧
      ranking_penalty n w r = penalty n w r ∧
      (∀ p, p.Perm (candidates n) →
        ranking_penalty n w p = penalty n w p ∧ ranking_penalty n w r ≤ penalty n w p) := by
  obtain ⟨r, hfuel, hr, hmin, _⟩ := find_kemeny_ranking_spec n w
  have e := ranking_penalty_exact n w hw hno
  refine ⟨r, hfuel, hr, e r hr, fun p hp => ⟨e p hp, ?_⟩⟩
  rw [← e p hp]
  exact hmin p hp

theorem C1_optimality_witness :
    ∃ r, (∀ fuel, 3 ! ≤ fuel →
        find_kemeny_ranking 3 (store_edges zero_weight [(0, 1, 5), (2, 1, 3)]) fuel = some r) ∧
      r.Perm (candidates 3) ∧
      ranking_penalty 3 (store_edges zero_weight [(0, 1, 5), (2, 1, 3)]) r =
        penalty 3 (store_edges zero_weight [(0, 1, 5), (2, 1, 3)]) r ∧
      (∀ p, p.Perm (candidates 3) →
        ranking_penalty 3 (store_edges zero_weight [(0, 1, 5), (2, 1, 3)]) p =
            penalty 3 (store_edges zero_weight [(0, 1, 5), (2, 1, 3)]) p ∧
          ranking_penalty 3 (store_edges zero_weight [(0, 1, 5), (2, 1, 3)]) r ≤
            penalty 3 (store_edges zero_weight [(0, 1, 5), (2, 1, 3)]) p) :=
  C1_optimality 3 (store_edges zero_weight [(0, 1, 5), (2, 1, 3)]) (by decide) (by decide)
    (fun a b _ _ _ _ =>
      (read_input_invariant 0 0 (3 :: encode [(0, 1, 5), (2, 1, 3)]) 3 _
        (read_input_of_no_conflict 0 0 3 _ _ (by rfl) (by rfl))).1 a b)
    (fun p hp => (by decide : ∀ q ∈ [[(0 : Int), 1, 2], [0, 2, 1], [1, 0, 2], [1, 2, 0],
        [2, 0, 1], [2, 1, 0]],
      penalty 3 (store_edges zero_weight [(0, 1, 5), (2, 1, 3)]) q ≤ INT_MAX) p
      (rankings_three p hp))

/-- C2 fails as stated: for `n = 3` and the non-negative matrix of the edges
`(0,1,2147483647), (0,2,1)`, the ranking `[0,1,2]` has penalty 0, the minimum over all
permutations, yet `find_kemeny_ranking` leaves `[1,2,0]`, whose penalty `2147483648`
overflows the C `int` to a negative score; `[1,2,0]` is lexicographically after
`[0,1,2]`. -/
theorem C2_counterexample :
    find_kemeny_ranking 3 (store_edges zero_weight [(0, 1, 2147483647), (0, 2, 1)]) 6 =
      some [1, 2, 0] ∧
    penalty 3 (store_edges zero_weight [(0, 1, 2147483647), (0, 2, 1)]) [0, 1, 2] = 0 ∧
    penalty 3 (store_edges zero_weight [(0, 1, 2147483647), (0, 2, 1)]) [1, 2, 0] =
      2147483648 ∧
    (∀ p, p.Perm (candidates 3) →
      penalty 3 (store_edges zero_weight [(0, 1, 2147483647), (0, 2, 1)]) [0, 1, 2] ≤
        penalty 3 (store_edges zero_weight [(0, 1, 2147483647), (0, 2, 1)]) p) ∧
    ¬ ([(1 : Int), 2, 0] = [0, 1, 2] ∨ LexLt [1, 2, 0] [0, 1, 2]) :=
  ⟨by decide, by decide, by decide,
    fun p hp => (by decide : ∀ q ∈ [[(0 : Int), 1, 2], [0, 2, 1], [1, 0, 2], [1, 2, 0],
        [2, 0, 1], [2, 1, 0]],
      penalty 3 (store_edges zero_weight [(0, 1, 2147483647), (0, 2, 1)]) [0, 1, 2] ≤
        penalty 3 (store_edges zero_weight [(0, 1, 2147483647), (0, 2, 1)]) q) p
      (rankings_three p hp),
    by decide⟩

/-- C2, amended.  For `1 ≤ n ≤ 100` and a weight matrix of non-negative integers whose
penalties do not exceed `INT_MAX`, the ranking left by `find_kemeny_ranking` has the
minimum penalty and is lexicographically less than or equal to every permutation of
`0..n-1` whose penalty equals the minimum penalty. -/
theorem C2_lexicographic_tie_break (n : Nat) (w : Weight) (_ : 1 ≤ n) (_ : n ≤ 100)
    (hw : ∀ a b : Int, 0 ≤ a → a < n → 0 ≤ b → b < n → 0 ≤ w a b)
    (hno : ∀ p, IsRanking n p → penalty n w p ≤ INT_MAX) :
    ∃ r, (∀ fuel, n ! ≤ fuel → find_kemeny_ranking n w fuel = some r) ∧
      r.Perm (candidates n) ∧
      (∀ p, p.Perm (candidates n) → penalty n w r ≤ penalty n w p) ∧
      (∀ p, p.Perm (candidates n) → penalty n w p = penalty n w r → r = p ∨ LexLt r p) := by
  obtain ⟨r, hfuel, hr, hmin, hlex⟩ := find_kemeny_ranking_spec n w
  have e := ranking_penalty_exact n w hw hno
  refine ⟨r, hfuel, hr, fun p hp => ?_, fun p hp hpen => ?_⟩
  · rw [← e p hp, ← e r hr]
    exact hmin p hp
  · exact hlex p hp (by rw [e p hp, e r hr, hpen])

theorem C2_lexicographic_tie_break_witness :
    ∃ r, (∀ fuel, 3 ! ≤ fuel →
        find_kemeny_ranking 3 (store_edges zero_weight (cycle_edges 1)) fuel = some r) ∧
      r.Perm (candidates 3) ∧
      (∀ p, p.Perm (candidates 3) →
        penalty 3 (store_edges zero_weight (cycle_edges 1)) r ≤
          penalty 3 (store_edges zero_weight (cycle_edges 1)) p) ∧
      (∀ p, p.Perm (candidates 3) →
        penalty 3 (store_edges zero_weight (cycle_edges 1)) p =
          penalty 3 (store_edges zero_weight (cycle_edges 1)) r → r = p ∨ LexLt r p) :=
  C2_lexicographic_tie_break 3 (store_edges zero_weight (cycle_edges 1)) (by decide)
    (by decide)
    (fun a b _ _ _ _ =>
      (read_input_invariant 0 0 (3 :: encode (cycle_edges 1)) 3 _
        (cycle_accepted 1 0 0 (by decide))).1 a b)
    (fun p hp => (by decide : ∀ q ∈ [[(0 : Int), 1, 2], [0, 2, 1], [1, 0, 2], [1, 2, 0],
        [2, 0, 1], [2, 1, 0]],
      penalty 3 (store_edges zero_weight (cycle_edges 1)) q ≤ INT_MAX) p
      (rankings_three p hp))

end Kemeny
